import Mathlib

/-!
# Blue-Love-Heart-Animation: the particle engine of `script.js`

A shallow embedding of the particle pool, the particle integrator, the heart
curve and the per-frame emission loops of `src/script.js`, followed by the
properties the specification states about them.

Conventions of the embedding.

* JavaScript numbers that hold kinematic quantities are elements of a linearly
  ordered field `α` (exact arithmetic; `ℚ` for evaluation, `ℝ` where the code
  calls `Math.sin`, `Math.cos` or `Math.sqrt`).  Array indices are `Nat`.
* Mutation is explicit state passing: a method returns the new object.
* A method that can throw (`particles[i]` is `undefined` and a member of it is
  read) or whose `while` loop is still running when the fuel is used up returns
  `none`.  Loops take their fuel as an argument; the theorems show that any
  fuel of at least the pool capacity is enough.
-/

namespace HeartAnim

/-! ## Definitions -/

/-- The object `settings.particles` (lines 2-10). -/
structure Settings (α : Type) where
  length : Nat
  duration : α
  velocity : α
  effect : α
  size : α
  color : String

/-- The values the script configures. -/
def settings : Settings ℚ :=
  { length := 15000, duration := 4, velocity := 100, effect := -13 / 10, size := 6,
    color := "f50b02" }

/-- The class `Point` (lines 27-47). -/
structure Point (α : Type) where
  x : α
  y : α
  deriving DecidableEq, Repr

/-- The class `Particle` (lines 50-87): three points and an age. -/
structure Particle (α : Type) where
  position : Point α
  velocity : Point α
  acceleration : Point α
  age : α
  deriving DecidableEq, Repr

/-- The class `ParticlePool` (lines 90-125): the slots and the two cursors. -/
structure ParticlePool (α : Type) where
  particles : List (Particle α)
  firstActive : Nat
  firstFree : Nat
  deriving DecidableEq, Repr

/-- The values a JavaScript expression of the emission code can have: a number,
`NaN`, or `undefined`. -/
inductive JsValue (α : Type) where
  | number (v : α)
  | nan
  | undefined
  deriving DecidableEq, Repr

/-- The four arguments of one call `particles.add(x, y, dx, dy)`. -/
structure AddCall (α : Type) where
  x : JsValue α
  y : JsValue α
  dx : JsValue α
  dy : JsValue α
  deriving DecidableEq, Repr

/-- What `Particle.draw` hands to the drawing context: the arc's centre, its
radius `size / 2` and the `globalAlpha`. -/
structure Arc (α : Type) where
  x : α
  y : α
  radius : α
  globalAlpha : α
  deriving DecidableEq, Repr

section Generic

variable {α : Type} [LinearOrderedField α]

/-- `clone()`, line 33. -/
def Point.clone (p : Point α) : Point α :=
  { x := p.x, y := p.y }

/-- `new Particle()`, lines 51-56: `new Point()` is `(0, 0)`. -/
def Particle.new : Particle α :=
  { position := ⟨0, 0⟩, velocity := ⟨0, 0⟩, acceleration := ⟨0, 0⟩, age := 0 }

/-- `initialize(x, y, dx, dy)`, lines 58-66. -/
def Particle.initialize (s : Settings α) (p : Particle α) (x y dx dy : α) : Particle α :=
  { p with
    position := { x := x, y := y }
    velocity := { x := dx, y := dy }
    acceleration := { x := dx * s.effect, y := dy * s.effect }
    age := 0 }

/-- `update(deltaTime)`, lines 68-74, one assignment after the other. -/
def Particle.update (p : Particle α) (deltaTime : α) : Particle α :=
  let p1 := { p with position := { p.position with x := p.position.x + p.velocity.x * deltaTime } }
  let p2 := { p1 with position := { p1.position with y := p1.position.y + p1.velocity.y * deltaTime } }
  let p3 := { p2 with velocity := { p2.velocity with x := p2.velocity.x + p2.acceleration.x * deltaTime } }
  let p4 := { p3 with velocity := { p3.velocity with y := p3.velocity.y + p3.acceleration.y * deltaTime } }
  { p4 with age := p4.age + deltaTime }

/-- The arrow function of line 77, `(t) => (--t) * t * t + 1`: the decrement
happens first and the two later reads of `t` see the decremented value. -/
def ease (t : α) : α :=
  let t1 := t - 1
  t1 * t1 * t1 + 1

/-- The constant `size` of line 78. -/
def Particle.size (s : Settings α) (p : Particle α) : α :=
  s.size * ease (p.age / s.duration)

/-- The constant `alpha` of line 79. -/
def Particle.alpha (s : Settings α) (p : Particle α) : α :=
  1 - p.age / s.duration

/-- `draw(context)`, lines 76-86: the arc that is filled. -/
def Particle.draw (s : Settings α) (p : Particle α) : Arc α :=
  { x := p.position.x, y := p.position.y, radius := p.size s / 2, globalAlpha := p.alpha s }

/-- `new ParticlePool(length)`, lines 91-95. -/
def ParticlePool.new (length : Nat) : ParticlePool α :=
  { particles := List.replicate length Particle.new, firstActive := 0, firstFree := 0 }

/-- `add(x, y, dx, dy)`, lines 97-103.  `none` when `particles[firstFree]` is
`undefined`, where the call of `initialize` throws. -/
def ParticlePool.add (s : Settings α) (pool : ParticlePool α) (x y dx dy : α) :
    Option (ParticlePool α) :=
  match pool.particles[pool.firstFree]? with
  | none => none
  | some p =>
    let particles := pool.particles.set pool.firstFree ( Particle.initialize s p x y dx dy)
    let firstFree := (pool.firstFree + 1) % particles.length
    if pool.firstActive = firstFree then
      some { particles := particles
             firstActive := (pool.firstActive + 1) % particles.length
             firstFree := firstFree }
    else
      some { particles := particles, firstActive := pool.firstActive, firstFree := firstFree }

/-- The first loop of `update`, lines 106-110, from the index `i` on.  `none`
when a slot read is `undefined` or the fuel is used up before `i` reaches
`firstFree`. -/
def ParticlePool.advanceLoop (firstFree : Nat) (deltaTime : α) :
    Nat → Nat → List (Particle α) → Option (List (Particle α))
  | fuel, i, particles =>
    if i = firstFree then some particles
    else
      match fuel with
      | 0 => none
      | fuel + 1 =>
        match particles[i]? with
        | none => none
        | some p =>
          ParticlePool.advanceLoop firstFree deltaTime fuel ((i + 1) % particles.length)
            (particles.set i (p.update deltaTime))

/-- The second loop of `update`, lines 112-115: the age is read first, then the
cursors are compared.  Returns the final `firstActive`; `none` when the slot
read is `undefined` or the fuel is used up. -/
def ParticlePool.retireLoop (s : Settings α) (particles : List (Particle α)) (firstFree : Nat) :
    Nat → Nat → Option Nat
  | 0, firstActive =>
    match particles[firstActive]? with
    | none => none
    | some p =>
      if s.duration ≤ p.age ∧ firstActive ≠ firstFree then none else some firstActive
  | fuel + 1, firstActive =>
    match particles[firstActive]? with
    | none => none
    | some p =>
      if s.duration ≤ p.age ∧ firstActive ≠ firstFree then
        ParticlePool.retireLoop s particles firstFree fuel ((firstActive + 1) % particles.length)
      else some firstActive

/-- `update(deltaTime)`, lines 105-116, with `fuel` iterations allowed to each
loop. -/
def ParticlePool.update (s : Settings α) (fuel : Nat) (pool : ParticlePool α) (deltaTime : α) :
    Option (ParticlePool α) :=
  match ParticlePool.advanceLoop pool.firstFree deltaTime fuel pool.firstActive pool.particles with
  | none => none
  | some particles =>
    match ParticlePool.retireLoop s particles pool.firstFree fuel pool.firstActive with
    | none => none
    | some firstActive =>
      some { particles := particles, firstActive := firstActive, firstFree := pool.firstFree }

/-- A call made on the pool by its user. -/
inductive PoolOp (α : Type) where
  | add (x y dx dy : α)
  | update (deltaTime : α)

/-- A sequence of calls, run from left to right; every `update` gets `fuel`. -/
def ParticlePool.run (s : Settings α) (fuel : Nat) :
    List (PoolOp α) → ParticlePool α → Option (ParticlePool α)
  | [], pool => some pool
  | PoolOp.add x y dx dy :: ops, pool =>
    match pool.add s x y dx dy with
    | none => none
    | some pool1 => ParticlePool.run s fuel ops pool1
  | PoolOp.update deltaTime :: ops, pool =>
    match pool.update s fuel deltaTime with
    | none => none
    | some pool1 => ParticlePool.run s fuel ops pool1

/-- The number of live particles, `(firstFree - firstActive) mod N`, with the
capacity added first so that the subtraction stays in `Nat`. -/
def ParticlePool.liveCount (pool : ParticlePool α) : Nat :=
  (pool.firstFree + pool.particles.length - pool.firstActive) % pool.particles.length

/-- The live range `[firstActive, firstFree)` as the list of its slot indices,
oldest first. -/
def ParticlePool.liveRange (pool : ParticlePool α) : List Nat :=
  (List.range pool.liveCount).map fun j => (pool.firstActive + j) % pool.particles.length

/-- The particle in slot `i` once `Particle.update` has advanced it. -/
def ParticlePool.agedSlot (pool : ParticlePool α) (deltaTime : α) (i : Nat) : Particle α :=
  (pool.particles.getD i Particle.new).update deltaTime

/-- The length of the longest prefix of the live range whose particles have
`age >= duration` once advanced by `deltaTime`. -/
def ParticlePool.expiredPrefix (s : Settings α) (pool : ParticlePool α) (deltaTime : α) : Nat :=
  (pool.liveRange.takeWhile fun i => decide (s.duration ≤ (pool.agedSlot deltaTime i).age)).length

/-- The constant `particleRate` of line 177. -/
def particleRate (s : Settings α) : α :=
  (s.length : α) / s.duration

/-- The constant `heartAmount` of line 190. -/
def heartAmount (s : Settings α) (deltaTime : α) : α :=
  particleRate s * deltaTime * (7 / 10)

/-- The constant `textAmount` of line 203. -/
def textAmount (s : Settings α) (deltaTime : α) : α :=
  particleRate s * deltaTime * (3 / 10)

/-- The loop of lines 191-200, `for (let i = 0; i < heartAmount; i++)`, from the
counter `i` on: the calls of `particles.add` it makes, in order, where
`emit i` is the call of iteration `i`.  `none` when the fuel is used up. -/
def heartLoop {β : Type} (amount : α) (emit : Nat → β) : Nat → Nat → List β → Option (List β)
  | fuel, i, calls =>
    if (i : α) < amount then
      match fuel with
      | 0 => none
      | fuel + 1 => heartLoop amount emit fuel (i + 1) (calls ++ [emit i])
    else some calls

/-- The loop of lines 204-217,
`for (let i = 0; i < textAmount && textParticles.length > 0; i++)`, from the
counter `i` on; `count` is `textParticles.length`. -/
def textLoop {β : Type} (amount : α) (count : Nat) (emit : Nat → β) :
    Nat → Nat → List β → Option (List β)
  | fuel, i, calls =>
    if (i : α) < amount ∧ 0 < count then
      match fuel with
      | 0 => none
      | fuel + 1 => textLoop amount count emit fuel (i + 1) (calls ++ [emit i])
    else some calls

/-- Reading the property `x` or `y` of a number: `Number.prototype` has neither,
so the read gives `undefined` whatever the number is. -/
def JsValue.ofNumberMember (_receiver : α) (_member : String) : JsValue α :=
  JsValue.undefined

/-- Unary minus, which converts its operand to a number first: `-undefined` is
`NaN`. -/
def JsValue.neg : JsValue α → JsValue α
  | JsValue.number v => JsValue.number (-v)
  | JsValue.nan => JsValue.nan
  | JsValue.undefined => JsValue.nan

end Generic

/-- `length()`, lines 37-39.  The method declares no parameter, so whatever
arguments a call passes (`_arguments`) are ignored. -/
noncomputable def Point.length (p : Point ℝ) (_arguments : List ℝ) : ℝ :=
  Real.sqrt (p.x * p.x + p.y * p.y)

/-- `normalize()`, lines 41-46. -/
noncomputable def Point.normalize (p : Point ℝ) : Point ℝ :=
  let length := p.length []
  let p1 := { p with x := p.x / length }
  { p1 with y := p1.y / length }

/-- `pointOnHeart(t)`, lines 128-137. -/
noncomputable def pointOnHeart (t : ℝ) : Point ℝ :=
  { x := 160 * Real.sin t ^ 3
    y := 130 * Real.cos t - 50 * Real.cos (2 * t) - 20 * Real.cos (3 * t)
      - 10 * Real.cos (4 * t) + 25 }

/-- The body of the heart loop, lines 192-199, for the value `random` returned
by `Math.random()`.  `dir` is what
`pos.clone().normalize().length(settings.particles.velocity)` returns, a
number, and the arguments `dir.x` and `-dir.y` are member reads of that
number. -/
noncomputable def heartEmission (s : Settings ℝ) (width height random : ℝ) : AddCall ℝ :=
  let pos := pointOnHeart (Real.pi - 2 * Real.pi * random)
  let dir := pos.clone.normalize.length [s.velocity]
  { x := JsValue.number (width / 2 + pos.x)
    y := JsValue.number (height / 2 - pos.y)
    dx := JsValue.ofNumberMember dir "x"
    dy := (JsValue.ofNumberMember dir "y").neg }

section Frames

variable {α : Type} [LinearOrderedField α]

/-- The loop of `ParticlePool.draw`, lines 119-123, from the index `i` on: the
arcs drawn, in order.  `none` when a slot read is `undefined` or the fuel is
used up before `i` reaches `firstFree`. -/
def ParticlePool.drawLoop (s : Settings α) (particles : List (Particle α)) (firstFree : Nat) :
    Nat → Nat → List (Arc α) → Option (List (Arc α))
  | 0, i, arcs => if i = firstFree then some arcs else none
  | fuel + 1, i, arcs =>
    if i = firstFree then some arcs
    else
      match particles[i]? with
      | none => none
      | some p =>
        ParticlePool.drawLoop s particles firstFree fuel ((i + 1) % particles.length)
          (arcs ++ [p.draw s])

/-- `draw(context)` of the pool, lines 118-124, with `fuel` iterations allowed. -/
def ParticlePool.draw (s : Settings α) (fuel : Nat) (pool : ParticlePool α) :
    Option (List (Arc α)) :=
  ParticlePool.drawLoop s pool.particles pool.firstFree fuel pool.firstActive []

/-- The ages of the live particles, from `firstActive` towards `firstFree`. -/
def ParticlePool.liveAges (pool : ParticlePool α) : List α :=
  pool.liveRange.map fun i => (pool.particles.getD i Particle.new).age

/-- A call that a frame can make: an `add`, or an `update` whose `deltaTime` is
not negative. -/
def PoolOp.forward : PoolOp α → Bool
  | PoolOp.add _ _ _ _ => true
  | PoolOp.update deltaTime => decide (0 ≤ deltaTime)

/-- The calls that are `add` calls. -/
def PoolOp.isAdd : PoolOp α → Bool
  | PoolOp.add _ _ _ _ => true
  | PoolOp.update _ => false

/-- The text loop of lines 204-217 acting on the pool, from the counter `i` on.
`random k` is the value of the `k`-th call of `Math.random()` in the loop, three
calls an iteration.  `none` when `textParticles[index]` is `undefined` (the
read of `pos.x` throws), when `add` throws, or when the fuel is used up. -/
def textEmissionLoop [FloorRing α] (s : Settings α) (width height amount : α)
    (textParticles : List (Point α)) (random : Nat → α) :
    Nat → Nat → ParticlePool α → Option (ParticlePool α)
  | 0, i, pool =>
    if (i : α) < amount ∧ 0 < textParticles.length then none else some pool
  | fuel + 1, i, pool =>
    if (i : α) < amount ∧ 0 < textParticles.length then
      let index : Int := ⌊random (3 * i) * (textParticles.length : α)⌋
      match (if 0 ≤ index then textParticles[index.toNat]? else none) with
      | none => none
      | some pos =>
        let dir : Point α :=
          { x := (random (3 * i + 1) - 1 / 2) * s.velocity * (1 / 2)
            y := (random (3 * i + 2) - 1 / 2) * s.velocity * (1 / 2) }
        match pool.add s (width / 2 + pos.x) (height / 2 + pos.y) dir.x dir.y with
        | none => none
        | some pool1 =>
          textEmissionLoop s width height amount textParticles random fuel (i + 1) pool1
    else some pool

/-- The constant `scale` of line 157. -/
def scale : Nat := 2

/-- The test of line 162 for the pixel `(x, y)`, `imageData[index + 3] > 128`
with `index = (y * width + x) * 4`; a read past the end of the data gives
`undefined`, which is not greater than 128. -/
def alphaAbove (width : Nat) (imageData : List Nat) (x y : Nat) : Bool :=
  match imageData[(y * width + x) * 4 + 3]? with
  | none => false
  | some alpha => decide (128 < alpha)

/-- The point pushed at line 163 for the pixel `(x, y)`. -/
def silhouettePoint (width height : Nat) (yOffset : α) (x y : Nat) : Point α :=
  { x := (x : α) - (width : α) / 2, y := (y : α) - (height : α) / 2 - yOffset }

/-- The inner loop of the scan, lines 160-165, for the row `y`, from the column
`x` on. -/
def scanRow (width height : Nat) (yOffset : α) (imageData : List Nat) (y : Nat) :
    Nat → Nat → List (Point α) → Option (List (Point α))
  | 0, x, particles => if x < width then none else some particles
  | fuel + 1, x, particles =>
    if x < width then
      scanRow width height yOffset imageData y fuel (x + scale)
        (if alphaAbove width imageData x y then
          particles ++ [silhouettePoint width height yOffset x y]
        else particles)
    else some particles

/-- The outer loop of the scan, lines 159-166, from the row `y` on; every row
gets `inner` iterations. -/
def scanRows (width height : Nat) (yOffset : α) (imageData : List Nat) (inner : Nat) :
    Nat → Nat → List (Point α) → Option (List (Point α))
  | 0, y, particles => if y < height then none else some particles
  | fuel + 1, y, particles =>
    if y < height then
      match scanRow width height yOffset imageData y inner 0 particles with
      | none => none
      | some particles1 =>
        scanRows width height yOffset imageData inner fuel (y + scale) particles1
    else some particles

/-- The scan of `getTextParticles`, lines 156-168, on the pixel data read back
at line 153 from a surface of `width` by `height` pixels; `yOffset` is
`settings.text.yOffset`. -/
def getTextParticles (width height : Nat) (yOffset : α) (imageData : List Nat) (fuel : Nat) :
    Option (List (Point α)) :=
  scanRows width height yOffset imageData fuel fuel 0 []

/-- The pixels `(x, y)` with both coordinates multiples of 2, `x < width` and
`y < height`, row by row. -/
def sampledPixels (width height : Nat) : List (Nat × Nat) :=
  (List.range ((height + 1) / 2)).flatMap fun j =>
    (List.range ((width + 1) / 2)).map fun i => (2 * i, 2 * j)

end Frames

/-- The pixel data of a surface of 4 by 2 pixels, four bytes a pixel, in which
the pixels `(1, 0)` and `(2, 0)` are opaque and the others transparent. -/
def sampleImage : List Nat :=
  [0, 0, 0, 0, 0, 0, 0, 255, 0, 0, 0, 255, 0, 0, 0, 0,
   0, 0, 0, 0, 0, 0, 0, 0, 0, 0, 0, 0, 0, 0, 0, 0]

/-- A pool of capacity three with two live particles, in slots 0 and 1; the
older one, in slot 0, is half a second from the end of its life. -/
def samplePool : ParticlePool ℚ :=
  { particles := [⟨⟨0, 0⟩, ⟨1, 0⟩, ⟨0, 0⟩, 7 / 2⟩, ⟨⟨0, 0⟩, ⟨0, 1⟩, ⟨0, 0⟩, 1⟩, Particle.new]
    firstActive := 0
    firstFree := 2 }

/-- A pool of capacity three with no live particle, whose cursors rest on a
dead slot of age nine. -/
def idlePool : ParticlePool ℚ :=
  { particles := [Particle.new, ⟨⟨5, 5⟩, ⟨1, 1⟩, ⟨0, 0⟩, 9⟩, Particle.new]
    firstActive := 1
    firstFree := 1 }

/-! ## Theorems -/

section Kinematics

variable {α : Type} [LinearOrderedField α]

/-- C5: `Particle.update(dt)` moves the position with the old velocity, then
adds `acceleration * dt` to the velocity and `dt` to the age, and leaves the
acceleration alone; after `initialize(0, 0, 10, 0)` with `effect = -1`, one
`update(1)` gives position `(10, 0)`, velocity `(0, 0)` and age `1`. -/
theorem particle_update_integrates :
    (∀ (p : Particle α) (dt : α),
      (p.update dt).position
          = ⟨p.position.x + p.velocity.x * dt, p.position.y + p.velocity.y * dt⟩ ∧
        (p.update dt).velocity
          = ⟨p.velocity.x + p.acceleration.x * dt, p.velocity.y + p.acceleration.y * dt⟩ ∧
        (p.update dt).age = p.age + dt ∧
        (p.update dt).acceleration = p.acceleration) ∧
    (∀ p0 : Particle ℚ,
      (Particle.update ( Particle.initialize { settings with effect := -1 } p0 0 0 10 0) 1).position
          = ⟨10, 0⟩ ∧
        (Particle.update ( Particle.initialize { settings with effect := -1 } p0 0 0 10 0) 1).velocity
          = ⟨0, 0⟩ ∧
        (Particle.update ( Particle.initialize { settings with effect := -1 } p0 0 0 10 0) 1).age
          = 1) := by
  refine ⟨fun p dt => ⟨rfl, rfl, rfl, rfl⟩, fun p0 => ?_⟩
  simp [Particle.update, Particle.initialize]

/-- C10: with `f = age / duration` and `duration > 0`, the ease helper is
`(f - 1)^3 + 1`, the drawn size is `size * ease f` (the arc's radius half of
it), the drawn alpha is `1 - f`; at `age = duration` the size is the full base
size and the alpha is `0`. -/
theorem draw_visual_parameters (s : Settings α) (p : Particle α) (hd : 0 < s.duration) :
    (∀ f : α, ease f = (f - 1) ^ 3 + 1) ∧
      p.size s = s.size * ((p.age / s.duration - 1) ^ 3 + 1) ∧
      p.alpha s = 1 - p.age / s.duration ∧
      (p.draw s).radius = s.size * ((p.age / s.duration - 1) ^ 3 + 1) / 2 ∧
      (p.draw s).globalAlpha = 1 - p.age / s.duration ∧
      (p.age = s.duration → ease (p.age / s.duration) = 1 ∧ p.size s = s.size ∧ p.alpha s = 0) := by
  have hease : ∀ f : α, ease f = (f - 1) ^ 3 + 1 := fun f => by
    simp only [ease]; ring
  refine ⟨hease, ?_, rfl, ?_, rfl, ?_⟩
  · simp only [Particle.size, hease]
  · simp only [Particle.draw, Particle.size, hease]
  · intro hage
    have hf : p.age / s.duration = 1 := by
      rw [hage]; exact div_self (ne_of_gt hd)
    simp [Particle.size, Particle.alpha, hease, hf]

/-- The parameters of C10 on the configured settings, for a particle whose age
is the configured duration. -/
theorem draw_visual_parameters_witness :
    (0 : ℚ) < settings.duration ∧
      ((∀ f : ℚ, ease f = (f - 1) ^ 3 + 1) ∧
        (⟨⟨1, 2⟩, ⟨0, 0⟩, ⟨0, 0⟩, 4⟩ : Particle ℚ).size settings
          = settings.size * (((4 : ℚ) / settings.duration - 1) ^ 3 + 1) ∧
        (⟨⟨1, 2⟩, ⟨0, 0⟩, ⟨0, 0⟩, 4⟩ : Particle ℚ).alpha settings = 1 - 4 / settings.duration ∧
        ((⟨⟨1, 2⟩, ⟨0, 0⟩, ⟨0, 0⟩, 4⟩ : Particle ℚ).draw settings).radius
          = settings.size * (((4 : ℚ) / settings.duration - 1) ^ 3 + 1) / 2 ∧
        ((⟨⟨1, 2⟩, ⟨0, 0⟩, ⟨0, 0⟩, 4⟩ : Particle ℚ).draw settings).globalAlpha
          = 1 - 4 / settings.duration ∧
        ((4 : ℚ) = settings.duration →
          ease ((4 : ℚ) / settings.duration) = 1 ∧
            (⟨⟨1, 2⟩, ⟨0, 0⟩, ⟨0, 0⟩, 4⟩ : Particle ℚ).size settings = settings.size ∧
            (⟨⟨1, 2⟩, ⟨0, 0⟩, ⟨0, 0⟩, 4⟩ : Particle ℚ).alpha settings = 0)) :=
  ⟨by norm_num [settings],
    draw_visual_parameters settings ⟨⟨1, 2⟩, ⟨0, 0⟩, ⟨0, 0⟩, 4⟩ (by norm_num [settings])⟩

end Kinematics

section Heart

/-- The cosine at three quarter turns. -/
theorem cos_three_half_pi : Real.cos (3 * (Real.pi / 2)) = 0 := by
  have h : 3 * (Real.pi / 2) = Real.pi / 2 + Real.pi := by ring
  rw [h, Real.cos_add_pi, Real.cos_pi_div_two, neg_zero]

/-- The value of the heart curve at a quarter turn. -/
theorem pointOnHeart_half_pi_eq : pointOnHeart (Real.pi / 2) = ⟨160, 65⟩ := by
  have h2 : 2 * (Real.pi / 2) = Real.pi := by ring
  have h4 : 4 * (Real.pi / 2) = 2 * Real.pi := by ring
  simp only [pointOnHeart, h2, h4, cos_three_half_pi, Real.sin_pi_div_two, Real.cos_pi_div_two,
    Real.cos_pi, Real.cos_two_pi]
  norm_num

/-- C6, as the code has it: `pointOnHeart(pi/2) = (160, 65)`; the term
`-50*cos(2t)` is `+50` at `t = pi/2`. -/
theorem pointOnHeart_half_pi : pointOnHeart (Real.pi / 2) = ⟨160, 65⟩ :=
  pointOnHeart_half_pi_eq

/-- C6, as stated, fails: `pointOnHeart(pi/2)` is not `(160, 25)`. -/
theorem pointOnHeart_half_pi_ne : pointOnHeart (Real.pi / 2) ≠ ⟨160, 25⟩ := by
  rw [pointOnHeart_half_pi_eq]
  intro h
  have hy := congrArg Point.y h
  norm_num at hy

/-- C7: `pointOnHeart(0) = (0, 130 - 50 - 20 - 10 + 25) = (0, 75)`. -/
theorem pointOnHeart_zero :
    pointOnHeart 0 = ⟨0, 130 - 50 - 20 - 10 + 25⟩ ∧ pointOnHeart 0 = ⟨0, 75⟩ := by
  constructor <;>
  · simp only [pointOnHeart, mul_zero, Real.sin_zero, Real.cos_zero]
    norm_num

end Heart

section Pool

variable {α : Type} [LinearOrderedField α]

/-- The successor of a slot index on the ring. -/
theorem succ_mod_eq {i N : Nat} (hi : i < N) :
    (i + 1) % N = if i + 1 = N then 0 else i + 1 := by
  split
  · next h => rw [h, Nat.mod_self]
  · next h => exact Nat.mod_eq_of_lt (by omega)

/-- The distance on the ring from slot `a` forward to slot `b`. -/
theorem circ_sub_eq {a b N : Nat} (ha : a < N) (hb : b < N) :
    (b + N - a) % N = if a ≤ b then b - a else b + N - a := by
  split
  · next h =>
    have : b + N - a = b - a + N := by omega
    rw [this, Nat.add_mod_right]
    exact Nat.mod_eq_of_lt (by omega)
  · next h => exact Nat.mod_eq_of_lt (by omega)

/-- The slot `j` steps after slot `a` on the ring. -/
theorem circ_add_eq {a j N : Nat} (ha : a < N) (hj : j < N) :
    (a + j) % N = if a + j < N then a + j else a + j - N := by
  split
  · next h => exact Nat.mod_eq_of_lt h
  · next h =>
    rw [Nat.mod_eq_sub_mod (by omega)]
    exact Nat.mod_eq_of_lt (by omega)

/-- The first loop of `update` ends within `d` iterations, `d` the distance
from `i` to `firstFree`; it applies `Particle.update` to the slots of
`[i, firstFree)` and to no other. -/
theorem advanceLoop_spec (ff : Nat) (dt : α) (N : Nat) :
    ∀ (d fuel i : Nat) (ps : List (Particle α)), ps.length = N → i < N → ff < N →
      (ff + N - i) % N = d → d ≤ fuel →
      ∃ qs, ParticlePool.advanceLoop ff dt fuel i ps = some qs ∧ qs.length = N ∧
        ∀ m, m < N → qs[m]? =
          if (m + N - i) % N < d then (ps[m]?).map (fun p => p.update dt) else ps[m]? := by
  intro d
  induction d with
  | zero =>
    intro fuel i ps hlen hi hff hd _
    have hif : i = ff := by
      have h1 := circ_sub_eq hi hff
      split_ifs at h1 <;> omega
    refine ⟨ps, ?_, hlen, fun m _ => by simp⟩
    unfold ParticlePool.advanceLoop
    simp [hif]
  | succ d ih =>
    intro fuel i ps hlen hi hff hd hfuel
    have hne : i ≠ ff := by
      intro h
      have h1 := circ_sub_eq hi hff
      split_ifs at h1 <;> omega
    obtain ⟨fuel, rfl⟩ : ∃ f, fuel = f + 1 := ⟨fuel - 1, by omega⟩
    have hi2 : i < ps.length := by omega
    have hget : ps[i]? = some ps[i] := List.getElem?_eq_getElem hi2
    have hnext : (i + 1) % N < N := Nat.mod_lt _ (by omega)
    have hdist : (ff + N - (i + 1) % N) % N = d := by
      have h1 := circ_sub_eq hi hff
      have h2 := circ_sub_eq hnext hff
      have h3 := succ_mod_eq hi
      split_ifs at h1 h2 h3 <;> omega
    obtain ⟨qs, hq, hqlen, hqs⟩ := ih fuel ((i + 1) % N) (ps.set i (ps[i].update dt))
      (by simp [hlen]) hnext hff hdist (by omega)
    refine ⟨qs, ?_, hqlen, fun m hm => ?_⟩
    · unfold ParticlePool.advanceLoop
      simp only [hne, if_false, hget, hlen]
      exact hq
    · rw [hqs m hm]
      have h1 := circ_sub_eq hi hm
      have h2 := circ_sub_eq hnext hm
      have h3 := succ_mod_eq hi
      have h4 := circ_sub_eq hi hff
      by_cases hmi : m = i
      · subst hmi
        have hlt : ¬ (m + N - (m + 1) % N) % N < d := by
          split_ifs at h1 h2 h3 h4 <;> omega
        have hlt2 : (m + N - m) % N < d + 1 := by
          split_ifs at h1 h2 h3 h4 <;> omega
        simp [hlt, hlt2, hget, List.getElem?_set_self hi2]
      · have hset : (ps.set i (ps[i].update dt))[m]? = ps[m]? :=
          List.getElem?_set_ne (fun h => hmi h.symm)
        have hiff : (m + N - (i + 1) % N) % N < d ↔ (m + N - i) % N < d + 1 := by
          split_ifs at h1 h2 h3 h4 <;> omega
        simp only [hset, hiff]

/-- Two tests that agree on a list cut the same prefix off it. -/
theorem takeWhile_congr_on {β : Type} (p q : β → Bool) :
    ∀ l : List β, (∀ x ∈ l, p x = q x) → l.takeWhile p = l.takeWhile q := by
  intro l
  induction l with
  | nil => intro _; rfl
  | cons a l ih =>
    intro h
    have ha : p a = q a := h a (List.mem_cons_self a l)
    have hl : l.takeWhile p = l.takeWhile q := ih fun x hx => h x (List.mem_cons_of_mem a hx)
    simp only [List.takeWhile_cons, ha, hl]

/-- The second loop of `update` ends within `d` iterations, `d` the distance
from `firstActive` to `firstFree`, and moves `firstActive` past the longest
run of slots, from the front, whose age has reached the duration. -/
theorem retireLoop_spec (s : Settings α) (qs : List (Particle α)) (ff N : Nat)
    (hlen : qs.length = N) (hff : ff < N) :
    ∀ (d fuel fa : Nat), fa < N → (ff + N - fa) % N = d → d ≤ fuel →
      ParticlePool.retireLoop s qs ff fuel fa =
        some ((fa + (((List.range d).map fun j => (fa + j) % N).takeWhile
          fun i => decide (s.duration ≤ (qs.getD i Particle.new).age)).length) % N) := by
  intro d
  induction d with
  | zero =>
    intro fuel fa hfa hd _
    have hif : fa = ff := by
      have h1 := circ_sub_eq hfa hff
      split_ifs at h1 <;> omega
    subst hif
    have hget : qs[fa]? = some qs[fa] := List.getElem?_eq_getElem (by omega)
    cases fuel <;> simp [ParticlePool.retireLoop, hget, Nat.mod_eq_of_lt hff]
  | succ d ih =>
    intro fuel fa hfa hd hfuel
    have hne : fa ≠ ff := by
      intro h
      have h1 := circ_sub_eq hfa hff
      split_ifs at h1 <;> omega
    obtain ⟨fuel, rfl⟩ : ∃ f, fuel = f + 1 := ⟨fuel - 1, by omega⟩
    have hfa2 : fa < qs.length := by omega
    have hget : qs[fa]? = some qs[fa] := List.getElem?_eq_getElem hfa2
    have hgetD : qs.getD fa Particle.new = qs[fa] := by
      rw [List.getD_eq_getElem?_getD, hget]; rfl
    have hnext : (fa + 1) % N < N := Nat.mod_lt _ (by omega)
    have hdist : (ff + N - (fa + 1) % N) % N = d := by
      have h1 := circ_sub_eq hfa hff
      have h2 := circ_sub_eq hnext hff
      have h3 := succ_mod_eq hfa
      split_ifs at h1 h2 h3 <;> omega
    have hshift : ((List.range d).map (Nat.succ)).map (fun j => (fa + j) % N)
        = (List.range d).map fun j => ((fa + 1) % N + j) % N := by
      rw [List.map_map]
      apply List.map_congr_left
      intro j _
      simp only [Function.comp, Nat.mod_add_mod, Nat.succ_eq_add_one]
      congr 1
      omega
    rw [List.range_succ_eq_map, List.map_cons, hshift, List.takeWhile_cons]
    simp only [Nat.add_zero, Nat.mod_eq_of_lt hfa, hgetD]
    simp only [ParticlePool.retireLoop, hget, hlen]
    by_cases hage : s.duration ≤ qs[fa].age
    · simp only [hage, hne, ne_eq, not_false_eq_true, and_self, if_true, decide_True,
        List.length_cons]
      rw [ih fuel ((fa + 1) % N) hnext hdist (by omega)]
      congr 1
      rw [Nat.mod_add_mod]
      congr 1
      omega
    · simp [hage, Nat.mod_eq_of_lt hfa]

/-- What `update` does to a pool whose cursors are in range: it returns, given
fuel for the live particles; `firstFree` stays; `firstActive` moves forward by
the expired prefix; the live slots are advanced by `Particle.update` once and
the other slots are as they were. -/
theorem update_spec (s : Settings α) (fuel : Nat) (pool : ParticlePool α) (dt : α)
    (hA : pool.firstActive < pool.particles.length)
    (hF : pool.firstFree < pool.particles.length) (hfuel : pool.liveCount ≤ fuel) :
    ∃ qs, pool.update s fuel dt =
        some { particles := qs
               firstActive :=
                 (pool.firstActive + pool.expiredPrefix s dt) % pool.particles.length
               firstFree := pool.firstFree } ∧
      qs.length = pool.particles.length ∧
      ∀ m, m < pool.particles.length → qs[m]? =
        if (m + pool.particles.length - pool.firstActive) % pool.particles.length
            < pool.liveCount
        then (pool.particles[m]?).map (fun p => p.update dt) else pool.particles[m]? := by
  obtain ⟨qs, hq, hqlen, hqs⟩ := advanceLoop_spec pool.firstFree dt pool.particles.length
    pool.liveCount fuel pool.firstActive pool.particles rfl hA hF rfl hfuel
  refine ⟨qs, ?_, hqlen, hqs⟩
  have hr := retireLoop_spec s qs pool.firstFree pool.particles.length hqlen hF
    pool.liveCount fuel pool.firstActive hA rfl hfuel
  have hk : (((List.range pool.liveCount).map fun j =>
        (pool.firstActive + j) % pool.particles.length).takeWhile
        fun i => decide (s.duration ≤ (qs.getD i Particle.new).age))
      = pool.liveRange.takeWhile fun i => decide (s.duration ≤ (pool.agedSlot dt i).age) := by
    apply takeWhile_congr_on
    intro i hi
    obtain ⟨j, hj, rfl⟩ := List.mem_map.mp hi
    have hjd : j < pool.liveCount := List.mem_range.mp hj
    have hdN : pool.liveCount < pool.particles.length := Nat.mod_lt _ (by omega)
    have hiN : (pool.firstActive + j) % pool.particles.length < pool.particles.length :=
      Nat.mod_lt _ (by omega)
    have hoff : ((pool.firstActive + j) % pool.particles.length + pool.particles.length
        - pool.firstActive) % pool.particles.length = j := by
      have h1 := circ_add_eq hA (show j < pool.particles.length by omega)
      have h2 := circ_sub_eq hA hiN
      split_ifs at h1 h2 <;> omega
    have hm := hqs _ hiN
    rw [hoff, if_pos hjd, List.getElem?_eq_getElem hiN] at hm
    simp only [ParticlePool.agedSlot, List.getD_eq_getElem?_getD, hm,
      List.getElem?_eq_getElem hiN, Option.map_some', Option.getD_some]
  simp only [ParticlePool.update, hq, hr, hk, ParticlePool.expiredPrefix]

/-- What `add` does to a pool whose `firstFree` is in range: it returns, the
slot at `firstFree` is initialised, `firstFree` moves one slot on, and
`firstActive` moves one slot on exactly when the new `firstFree` reaches it. -/
theorem add_spec (s : Settings α) (pool : ParticlePool α) (x y dx dy : α)
    (hF : pool.firstFree < pool.particles.length) :
    pool.add s x y dx dy =
      some { particles := pool.particles.set pool.firstFree
               ( Particle.initialize s (pool.particles.getD pool.firstFree Particle.new) x y dx dy)
             firstActive :=
               if pool.firstActive = (pool.firstFree + 1) % pool.particles.length
               then (pool.firstActive + 1) % pool.particles.length else pool.firstActive
             firstFree := (pool.firstFree + 1) % pool.particles.length } := by
  have hget : pool.particles[pool.firstFree]? = some pool.particles[pool.firstFree] :=
    List.getElem?_eq_getElem hF
  have hgetD : pool.particles.getD pool.firstFree Particle.new = pool.particles[pool.firstFree] := by
    rw [List.getD_eq_getElem?_getD, hget]; rfl
  simp only [ParticlePool.add, hget, hgetD, List.length_set]
  split <;> rfl

/-- The length of the prefix cut by a test: the test holds on the prefix and
fails on the element that follows it. -/
theorem takeWhile_length_spec {β : Type} (p : β → Bool) :
    ∀ l : List β, (∀ x ∈ l.take (l.takeWhile p).length, p x = true) ∧
      ∀ h : (l.takeWhile p).length < l.length, p (l.get ⟨(l.takeWhile p).length, h⟩) = false := by
  intro l
  induction l with
  | nil => exact ⟨fun x hx => by simp at hx, fun h => by simp at h⟩
  | cons a l ih =>
    by_cases ha : p a = true
    · have ht : (a :: l).takeWhile p = a :: l.takeWhile p := by
        simp [List.takeWhile_cons, ha]
      refine ⟨fun x hx => ?_, fun h => ?_⟩
      · rw [ht, List.length_cons, List.take_succ_cons, List.mem_cons] at hx
        rcases hx with rfl | hx
        · exact ha
        · exact ih.1 x hx
      · have hlen : ((a :: l).takeWhile p).length = (l.takeWhile p).length + 1 := by
          rw [ht, List.length_cons]
        have h2 : (l.takeWhile p).length < l.length := by
          rw [hlen, List.length_cons] at h; omega
        have := ih.2 h2
        simpa [hlen] using this
    · have ht : (a :: l).takeWhile p = [] := by
        simp [List.takeWhile_cons, ha]
      refine ⟨fun x hx => by simp [ht] at hx, fun h => ?_⟩
      simpa [ht] using ha

/-- The cursors of a pool stay in range, and its capacity stays, through any
sequence of `add` and `update` calls, none of which throws or runs out of
fuel. -/
theorem run_spec (s : Settings α) (N fuel : Nat) (hfuel : N ≤ fuel) :
    ∀ (ops : List (PoolOp α)) (pool : ParticlePool α), pool.particles.length = N →
      pool.firstActive < N → pool.firstFree < N →
      ∃ pool1, ParticlePool.run s fuel ops pool = some pool1 ∧ pool1.particles.length = N ∧
        pool1.firstActive < N ∧ pool1.firstFree < N := by
  intro ops
  induction ops with
  | nil => intro pool hlen hA hF; exact ⟨pool, rfl, hlen, hA, hF⟩
  | cons op ops ih =>
    intro pool hlen hA hF
    have hN : 0 < N := by omega
    cases op with
    | add x y dx dy =>
      have hadd := add_spec s pool x y dx dy (by omega)
      simp only [ParticlePool.run, hadd]
      apply ih
      · simp [hlen]
      · simp only [hlen]
        split
        · exact Nat.mod_lt _ hN
        · exact hA
      · simp only [hlen]
        exact Nat.mod_lt _ hN
    | update dt =>
      have hd : pool.liveCount < N := by
        simp only [ParticlePool.liveCount, hlen]
        exact Nat.mod_lt _ hN
      obtain ⟨qs, hq, hqlen, -⟩ := update_spec s fuel pool dt (by omega) (by omega) (by omega)
      simp only [ParticlePool.run, hq]
      apply ih
      · simp [hqlen, hlen]
      · simp only [hlen]
        exact Nat.mod_lt _ hN
      · exact hF

/-- C1: from a fresh pool of capacity `N >= 1`, every sequence of `add` and
`update` calls runs to its end, and afterwards `firstActive` and `firstFree`
are in `[0, N)` and the number of live particles is at most `N`. -/
theorem pool_cursors_in_range (s : Settings α) (N fuel : Nat) (hN : 1 ≤ N) (hfuel : N ≤ fuel)
    (ops : List (PoolOp α)) :
    ∃ pool, ParticlePool.run s fuel ops (ParticlePool.new N) = some pool ∧
      pool.particles.length = N ∧ pool.firstActive < N ∧ pool.firstFree < N ∧
      pool.liveCount ≤ N := by
  obtain ⟨pool, hrun, hlen, hA, hF⟩ := run_spec s N fuel hfuel ops (ParticlePool.new N)
    (by simp [ParticlePool.new]) (by simp only [ParticlePool.new]; omega)
    (by simp only [ParticlePool.new]; omega)
  refine ⟨pool, hrun, hlen, hA, hF, ?_⟩
  simp only [ParticlePool.liveCount, hlen]
  exact Nat.le_of_lt (Nat.mod_lt _ (by omega))

/-- C2: on a pool of capacity `N >= 1` with cursors in `[0, N)`, `add` returns
without an error and moves `firstFree` one slot on modulo `N`; when that makes
`firstFree` equal `firstActive`, which is when `N - 1` particles were live, it
moves `firstActive` one slot on modulo `N`, and otherwise leaves it. -/
theorem add_overflow_policy (s : Settings α) (pool : ParticlePool α) (x y dx dy : α)
    (hN : 1 ≤ pool.particles.length) (hA : pool.firstActive < pool.particles.length)
    (hF : pool.firstFree < pool.particles.length) :
    ∃ pool1, pool.add s x y dx dy = some pool1 ∧
      pool1.particles.length = pool.particles.length ∧
      pool1.firstFree = (pool.firstFree + 1) % pool.particles.length ∧
      (pool1.firstFree = pool.firstActive →
        pool1.firstActive = (pool.firstActive + 1) % pool.particles.length) ∧
      (pool1.firstFree ≠ pool.firstActive → pool1.firstActive = pool.firstActive) ∧
      (pool1.firstFree = pool.firstActive ↔ pool.liveCount = pool.particles.length - 1) := by
  refine ⟨_, add_spec s pool x y dx dy hF, by simp, rfl, ?_, ?_, ?_⟩
  · intro h
    simp only at h
    simp only [h, if_true]
  · intro h
    simp only at h
    exact if_neg (fun h2 => h (Eq.symm h2))
  · simp only [ParticlePool.liveCount]
    have h1 := circ_sub_eq hA hF
    have h3 := succ_mod_eq hF
    split_ifs at h1 h3 <;> omega

/-- C4: on a pool with no live particle (`firstActive = firstFree`, in range),
`update` returns the pool as it was, cursors and slots, for every `dt`, every
fuel and whatever the ages in the slots. -/
theorem update_empty_unchanged (s : Settings α) (fuel : Nat) (pool : ParticlePool α) (dt : α)
    (hA : pool.firstActive < pool.particles.length) (hE : pool.firstActive = pool.firstFree) :
    pool.update s fuel dt = some pool := by
  have hd : pool.liveCount = 0 := by
    simp only [ParticlePool.liveCount, ← hE]
    rw [show pool.firstActive + pool.particles.length - pool.firstActive
      = pool.particles.length by omega, Nat.mod_self]
  obtain ⟨qs, hq, hqlen, hqs⟩ := update_spec s fuel pool dt hA (hE ▸ hA) (by omega)
  have hk : pool.expiredPrefix s dt = 0 := by
    simp [ParticlePool.expiredPrefix, ParticlePool.liveRange, hd]
  have hqs2 : qs = pool.particles := by
    apply List.ext_getElem?
    intro m
    by_cases hm : m < pool.particles.length
    · rw [hqs m hm, hd, if_neg (Nat.not_lt_zero _)]
    · rw [List.getElem?_eq_none (by omega), List.getElem?_eq_none (by omega)]
  rw [hq, hk, hqs2, Nat.add_zero, Nat.mod_eq_of_lt hA]

/-- C3: on a pool with cursors in `[0, N)`, `update` returns, leaves
`firstFree`, and moves `firstActive` forward by `k` slots modulo `N`, where `k`
is the length of the longest prefix of the live range whose particles, once
advanced by `dt`, have `age >= duration`: the first `k` live slots have
expired, the next one (if any) has not, and the live range afterwards is the
live range before without its first `k` slots. -/
theorem update_fifo_expiry (s : Settings α) (fuel : Nat) (pool : ParticlePool α) (dt : α)
    (hA : pool.firstActive < pool.particles.length)
    (hF : pool.firstFree < pool.particles.length) (hfuel : pool.particles.length ≤ fuel) :
    ∃ pool1, pool.update s fuel dt = some pool1 ∧
      pool1.particles.length = pool.particles.length ∧
      pool1.firstFree = pool.firstFree ∧
      pool1.firstActive = (pool.firstActive + pool.expiredPrefix s dt) % pool.particles.length ∧
      pool.expiredPrefix s dt ≤ pool.liveCount ∧
      (∀ i ∈ pool.liveRange.take (pool.expiredPrefix s dt),
        s.duration ≤ (pool.agedSlot dt i).age) ∧
      (∀ h : pool.expiredPrefix s dt < pool.liveRange.length,
        ¬ s.duration ≤ (pool.agedSlot dt (pool.liveRange.get ⟨pool.expiredPrefix s dt, h⟩)).age) ∧
      pool1.liveRange = pool.liveRange.drop (pool.expiredPrefix s dt) ∧
      pool1.liveRange <:+ pool.liveRange := by
  have hN : 0 < pool.particles.length := by omega
  have hd : pool.liveCount < pool.particles.length := Nat.mod_lt _ hN
  obtain ⟨qs, hq, hqlen, -⟩ := update_spec s fuel pool dt hA hF (by omega)
  have hlr : pool.liveRange.length = pool.liveCount := by
    simp [ParticlePool.liveRange]
  have hk : pool.expiredPrefix s dt ≤ pool.liveCount := by
    rw [← hlr]
    exact (List.takeWhile_sublist _).length_le
  have hspec := takeWhile_length_spec
    (fun i => decide (s.duration ≤ (pool.agedSlot dt i).age)) pool.liveRange
  have hdrop : ({ particles := qs
                  firstActive :=
                    (pool.firstActive + pool.expiredPrefix s dt) % pool.particles.length
                  firstFree := pool.firstFree } : ParticlePool α).liveRange
      = pool.liveRange.drop (pool.expiredPrefix s dt) := by
    have hnew : (pool.firstActive + pool.expiredPrefix s dt) % pool.particles.length
        < pool.particles.length := Nat.mod_lt _ hN
    have hcount : (pool.firstFree + pool.particles.length
        - (pool.firstActive + pool.expiredPrefix s dt) % pool.particles.length)
          % pool.particles.length = pool.liveCount - pool.expiredPrefix s dt := by
      have h1 := circ_sub_eq hA hF
      have h2 := circ_sub_eq hnew hF
      have h3 := circ_add_eq hA (show pool.expiredPrefix s dt < pool.particles.length by omega)
      simp only [ParticlePool.liveCount] at hk hd ⊢
      split_ifs at h1 h2 h3 <;> omega
    apply List.ext_getElem
    · simp [ParticlePool.liveRange, ParticlePool.liveCount, hqlen, hcount]
    · intro j h1 h2
      simp only [ParticlePool.liveRange, List.getElem_map, List.getElem_range, List.getElem_drop,
        hqlen, Nat.mod_add_mod, Nat.add_assoc]
  refine ⟨_, hq, hqlen, rfl, rfl, hk, ?_, ?_, hdrop, ?_⟩
  · intro i hi
    have := hspec.1 i hi
    simpa using this
  · intro h
    have := hspec.2 h
    simpa using this
  · rw [hdrop]
    exact List.drop_suffix _ _

/-- The statement of C1 on a pool of capacity three, through three `add` calls
with an `update` between them. -/
theorem pool_cursors_in_range_witness :
    1 ≤ 3 ∧ 3 ≤ 3 ∧
      ∃ pool, ParticlePool.run settings 3
          [PoolOp.add 0 0 1 1, PoolOp.add 1 0 1 1, PoolOp.update (1 / 60), PoolOp.add 2 0 1 1]
          (ParticlePool.new 3) = some pool ∧
        pool.particles.length = 3 ∧ pool.firstActive < 3 ∧ pool.firstFree < 3 ∧
        pool.liveCount ≤ 3 :=
  ⟨by decide, by decide,
    pool_cursors_in_range settings 3 3 (by decide) (by decide)
      [PoolOp.add 0 0 1 1, PoolOp.add 1 0 1 1, PoolOp.update (1 / 60), PoolOp.add 2 0 1 1]⟩

/-- The statement of C2 on the sample pool, which is full: capacity three, two
live particles. -/
theorem add_overflow_policy_witness :
    1 ≤ samplePool.particles.length ∧ samplePool.firstActive < samplePool.particles.length ∧
      samplePool.firstFree < samplePool.particles.length ∧
      ∃ pool1, samplePool.add settings 3 4 1 0 = some pool1 ∧
        pool1.particles.length = samplePool.particles.length ∧
        pool1.firstFree = (samplePool.firstFree + 1) % samplePool.particles.length ∧
        (pool1.firstFree = samplePool.firstActive →
          pool1.firstActive = (samplePool.firstActive + 1) % samplePool.particles.length) ∧
        (pool1.firstFree ≠ samplePool.firstActive →
          pool1.firstActive = samplePool.firstActive) ∧
        (pool1.firstFree = samplePool.firstActive ↔
          samplePool.liveCount = samplePool.particles.length - 1) :=
  ⟨by decide, by decide, by decide,
    add_overflow_policy settings samplePool 3 4 1 0 (by decide) (by decide) (by decide)⟩

/-- The statement of C4 on the idle pool, whose cursors rest on a slot of age
nine, past the duration of four. -/
theorem update_empty_unchanged_witness :
    idlePool.firstActive < idlePool.particles.length ∧
      idlePool.firstActive = idlePool.firstFree ∧
      idlePool.update settings 0 1 = some idlePool :=
  ⟨by decide, by decide, update_empty_unchanged settings 0 idlePool 1 (by decide) (by decide)⟩

/-- The statement of C3 on the sample pool with `dt = 1`: the particle of slot
0 reaches age 9/2. -/
theorem update_fifo_expiry_witness :
    samplePool.firstActive < samplePool.particles.length ∧
      samplePool.firstFree < samplePool.particles.length ∧
      samplePool.particles.length ≤ 3 ∧
      ∃ pool1, samplePool.update settings 3 1 = some pool1 ∧
        pool1.particles.length = samplePool.particles.length ∧
        pool1.firstFree = samplePool.firstFree ∧
        pool1.firstActive = (samplePool.firstActive + samplePool.expiredPrefix settings 1)
          % samplePool.particles.length ∧
        samplePool.expiredPrefix settings 1 ≤ samplePool.liveCount ∧
        (∀ i ∈ samplePool.liveRange.take (samplePool.expiredPrefix settings 1),
          settings.duration ≤ (samplePool.agedSlot 1 i).age) ∧
        (∀ h : samplePool.expiredPrefix settings 1 < samplePool.liveRange.length,
          ¬ settings.duration ≤ (samplePool.agedSlot 1
            (samplePool.liveRange.get ⟨samplePool.expiredPrefix settings 1, h⟩)).age) ∧
        pool1.liveRange = samplePool.liveRange.drop (samplePool.expiredPrefix settings 1) ∧
        pool1.liveRange <:+ samplePool.liveRange :=
  ⟨by decide, by decide, by decide,
    update_fifo_expiry settings 3 samplePool 1 (by decide) (by decide) (by decide)⟩

end Pool

section Emission

variable {α : Type} [LinearOrderedField α] [FloorRing α]

/-- The heart loop started at counter `i` runs until the counter reaches the
ceiling of the amount, and makes the calls of the counters in between. -/
theorem heartLoop_spec {β : Type} (amount : α) (emit : Nat → β) :
    ∀ (n fuel i : Nat) (calls : List β), ⌈amount⌉₊ - i = n → n ≤ fuel →
      heartLoop amount emit fuel i calls = some (calls ++ (List.range' i n).map emit) := by
  intro n
  induction n with
  | zero =>
    intro fuel i calls hn _
    have hlt : ¬ (i : α) < amount := by
      rw [← Nat.lt_ceil]; omega
    unfold heartLoop
    simp [hlt]
  | succ n ih =>
    intro fuel i calls hn hfuel
    have hlt : (i : α) < amount := by
      rw [← Nat.lt_ceil]; omega
    obtain ⟨fuel, rfl⟩ : ∃ f, fuel = f + 1 := ⟨fuel - 1, by omega⟩
    unfold heartLoop
    simp only [hlt, if_true]
    rw [ih fuel (i + 1) (calls ++ [emit i]) (by omega) (by omega)]
    simp [List.range'_succ]

/-- The text loop over a non-empty point set, started at counter `i`, runs
until the counter reaches the ceiling of the amount. -/
theorem textLoop_spec {β : Type} (amount : α) (count : Nat) (hcount : 0 < count)
    (emit : Nat → β) :
    ∀ (n fuel i : Nat) (calls : List β), ⌈amount⌉₊ - i = n → n ≤ fuel →
      textLoop amount count emit fuel i calls = some (calls ++ (List.range' i n).map emit) := by
  intro n
  induction n with
  | zero =>
    intro fuel i calls hn _
    have hlt : ¬ (i : α) < amount := by
      rw [← Nat.lt_ceil]; omega
    unfold textLoop
    simp [hlt]
  | succ n ih =>
    intro fuel i calls hn hfuel
    have hlt : (i : α) < amount := by
      rw [← Nat.lt_ceil]; omega
    obtain ⟨fuel, rfl⟩ : ∃ f, fuel = f + 1 := ⟨fuel - 1, by omega⟩
    unfold textLoop
    simp only [hlt, hcount, and_self, if_true]
    rw [ih fuel (i + 1) (calls ++ [emit i]) (by omega) (by omega)]
    simp [List.range'_succ]

/-- C9, as the code has it: the heart loop makes as many `add` calls as the
least natural number that is at least `heartAmount`, the amount rounded up,
one call for each counter below it; so does the text loop with `textAmount`
when the point set is not empty.  Both loops end within that many
iterations. -/
theorem emission_counts_round_up {β : Type} (s : Settings α) (dt : α) (fuel count : Nat)
    (emitHeart emitText : Nat → β) (hheart : ⌈heartAmount s dt⌉₊ ≤ fuel)
    (htext : ⌈textAmount s dt⌉₊ ≤ fuel) (hcount : 0 < count) :
    (∃ calls, heartLoop (heartAmount s dt) emitHeart fuel 0 [] = some calls ∧
        calls = (List.range ⌈heartAmount s dt⌉₊).map emitHeart ∧
        calls.length = ⌈heartAmount s dt⌉₊) ∧
      (∃ calls, textLoop (textAmount s dt) count emitText fuel 0 [] = some calls ∧
        calls = (List.range ⌈textAmount s dt⌉₊).map emitText ∧
        calls.length = ⌈textAmount s dt⌉₊) := by
  constructor
  · refine ⟨_, heartLoop_spec _ emitHeart _ fuel 0 [] rfl hheart, ?_, ?_⟩
    · simp [List.range_eq_range']
    · simp
  · refine ⟨_, textLoop_spec _ count hcount emitText _ fuel 0 [] rfl htext, ?_, ?_⟩
    · simp [List.range_eq_range']
    · simp

end Emission

section Frame

/-- The heart amount of a frame of a sixtieth of a second. -/
theorem heartAmount_sixtieth : heartAmount settings (1 / 60) = 175 / 4 := by
  norm_num [heartAmount, particleRate, settings]

/-- The text amount of a frame of a sixtieth of a second. -/
theorem textAmount_sixtieth : textAmount settings (1 / 60) = 75 / 4 := by
  norm_num [textAmount, particleRate, settings]

/-- The amounts of a frame of a sixtieth of a second, rounded up. -/
theorem ceil_amounts_sixtieth :
    ⌈heartAmount settings (1 / 60)⌉₊ = 44 ∧ ⌈textAmount settings (1 / 60)⌉₊ = 19 := by
  rw [heartAmount_sixtieth, textAmount_sixtieth]
  constructor
  · rw [Nat.ceil_eq_iff (by decide)]; norm_num
  · rw [Nat.ceil_eq_iff (by decide)]; norm_num

/-- The statement of C9 for the configured settings and a frame of a sixtieth
of a second. -/
theorem emission_counts_round_up_witness :
    ⌈heartAmount settings (1 / 60)⌉₊ ≤ 44 ∧ ⌈textAmount settings (1 / 60)⌉₊ ≤ 44 ∧ 0 < 5 ∧
      (∃ calls, heartLoop (heartAmount settings (1 / 60)) (fun i => i) 44 0 [] = some calls ∧
          calls = (List.range ⌈heartAmount settings (1 / 60)⌉₊).map (fun i => i) ∧
          calls.length = ⌈heartAmount settings (1 / 60)⌉₊) ∧
        (∃ calls, textLoop (textAmount settings (1 / 60)) 5 (fun i => i) 44 0 [] = some calls ∧
          calls = (List.range ⌈textAmount settings (1 / 60)⌉₊).map (fun i => i) ∧
          calls.length = ⌈textAmount settings (1 / 60)⌉₊) :=
  ⟨by rw [ceil_amounts_sixtieth.1], by rw [ceil_amounts_sixtieth.2]; decide, by decide,
    emission_counts_round_up settings (1 / 60) 44 5 (fun i => i) (fun i => i)
      (by rw [ceil_amounts_sixtieth.1]) (by rw [ceil_amounts_sixtieth.2]; decide) (by decide)⟩

/-- C9, as stated, fails: in a frame of a sixtieth of a second the heart amount
is 43.75 and the heart loop makes 44 calls, not the floor 43; the text amount
is 18.75 and the text loop makes 19 calls, not 18. -/
theorem emission_counts_not_floor :
    (∃ calls, heartLoop (heartAmount settings (1 / 60)) (fun i => i) 44 0 [] = some calls ∧
        calls.length = 44 ∧ ⌊heartAmount settings (1 / 60)⌋₊ = 43 ∧
        calls.length ≠ ⌊heartAmount settings (1 / 60)⌋₊) ∧
      (∃ calls, textLoop (textAmount settings (1 / 60)) 5 (fun i => i) 44 0 [] = some calls ∧
        calls.length = 19 ∧ ⌊textAmount settings (1 / 60)⌋₊ = 18 ∧
        calls.length ≠ ⌊textAmount settings (1 / 60)⌋₊) := by
  have hfh : ⌊heartAmount settings (1 / 60)⌋₊ = 43 := by
    rw [heartAmount_sixtieth, Nat.floor_eq_iff (by norm_num)]; norm_num
  have hft : ⌊textAmount settings (1 / 60)⌋₊ = 18 := by
    rw [textAmount_sixtieth, Nat.floor_eq_iff (by norm_num)]; norm_num
  constructor
  · refine ⟨_, heartLoop_spec _ _ 44 44 0 [] (by rw [ceil_amounts_sixtieth.1]) (by decide),
      by simp, hfh, ?_⟩
    rw [hfh]; simp
  · refine ⟨_, textLoop_spec _ 5 (by decide) _ 19 44 0 [] (by rw [ceil_amounts_sixtieth.2])
      (by decide), by simp, hft, ?_⟩
    rw [hft]; simp

/-- C8, on the code: in every heart emission the arguments `dx` and `dy` of
`particles.add` are `undefined` and `NaN`, not a velocity; `dir` is the number
returned by `length`, which ignores the velocity passed to it.  At `t = 0`
(`Math.random()` returning 1/2) the call is
`add(width/2 + 0, height/2 - 75, undefined, NaN)`. -/
theorem heartEmission_velocity_lost (s : Settings ℝ) (width height random : ℝ) :
    (heartEmission s width height random).dx = JsValue.undefined ∧
      (heartEmission s width height random).dy = JsValue.nan ∧
      heartEmission s width height (1 / 2) =
        ⟨JsValue.number (width / 2 + 0), JsValue.number (height / 2 - 75),
          JsValue.undefined, JsValue.nan⟩ := by
  refine ⟨rfl, rfl, ?_⟩
  have ht : Real.pi - 2 * Real.pi * (1 / 2) = 0 := by ring
  have hp : pointOnHeart 0 = ⟨0, 75⟩ := by
    simp only [pointOnHeart, mul_zero, Real.sin_zero, Real.cos_zero]
    norm_num
  simp only [heartEmission, ht, hp, JsValue.ofNumberMember, JsValue.neg]

end Frame

section Later

variable {α : Type} [LinearOrderedField α]

/-- C12: after `initialize(x, y, dx, dy)` the position is `(x, y)`, the
velocity `(dx, dy)`, the acceleration `(dx * effect, dy * effect)` and the age
`0`, whatever the particle held before. -/
theorem initialize_postcondition (s : Settings α) (p q : Particle α) (x y dx dy : α) :
    ( Particle.initialize s p x y dx dy).position = ⟨x, y⟩ ∧
      ( Particle.initialize s p x y dx dy).velocity = ⟨dx, dy⟩ ∧
      ( Particle.initialize s p x y dx dy).acceleration = ⟨dx * s.effect, dy * s.effect⟩ ∧
      ( Particle.initialize s p x y dx dy).age = 0 ∧
      Particle.initialize s p x y dx dy = Particle.initialize s q x y dx dy :=
  ⟨rfl, rfl, rfl, rfl, rfl⟩

/-- C11: with an empty silhouette point set the text loop makes no call of
`particles.add` and returns at once, for every amount, every fuel and every
random stream; the pool after the text step is the pool before it. -/
theorem empty_silhouette_no_text_emission [FloorRing α] {β : Type} (s : Settings α)
    (width height amount : α) (random : Nat → α) (emit : Nat → β) (fuel : Nat)
    (pool : ParticlePool α) :
    textLoop amount 0 emit fuel 0 [] = some [] ∧
      textLoop amount ([] : List (Point α)).length emit fuel 0 [] = some [] ∧
      textEmissionLoop s width height amount [] random fuel 0 pool = some pool := by
  refine ⟨?_, ?_, ?_⟩
  · unfold textLoop; simp
  · unfold textLoop; simp
  · cases fuel <;> simp [textEmissionLoop]

end Later

section Vectors

/-- The length of a point is not negative. -/
theorem length_nonneg (p : Point ℝ) : 0 ≤ p.length [] :=
  Real.sqrt_nonneg _

/-- The square of the length of a point. -/
theorem length_mul_self (p : Point ℝ) : p.length [] * p.length [] = p.x * p.x + p.y * p.y :=
  Real.mul_self_sqrt (add_nonneg (mul_self_nonneg _) (mul_self_nonneg _))

/-- The value of `normalize` on a point of non-zero length has length one. -/
theorem normalize_length (p : Point ℝ) (h : p.length [] ≠ 0) : p.normalize.length [] = 1 := by
  have hsq := length_mul_self p
  have hL : p.length [] * p.length [] ≠ 0 := mul_ne_zero h h
  have hsum : p.x / p.length [] * (p.x / p.length []) + p.y / p.length [] * (p.y / p.length [])
      = 1 := by
    rw [div_mul_div_comm, div_mul_div_comm, ← add_div, ← hsq]
    exact div_self hL
  have hn : p.normalize = ⟨p.x / p.length [], p.y / p.length []⟩ := rfl
  rw [hn]
  show Real.sqrt _ = 1
  simp only [hsum, Real.sqrt_one]

/-- C13: on a point of non-zero length, `normalize` divides both components by
`sqrt(x^2 + y^2)`; the result has length one, is a positive multiple of the
point, and is left as it is by a second `normalize`. -/
theorem normalize_unit_length (p : Point ℝ) (h : p.length [] ≠ 0) :
    p.length [] = Real.sqrt (p.x ^ 2 + p.y ^ 2) ∧
      p.normalize = ⟨p.x / Real.sqrt (p.x ^ 2 + p.y ^ 2), p.y / Real.sqrt (p.x ^ 2 + p.y ^ 2)⟩ ∧
      p.normalize.length [] = 1 ∧
      (∃ c : ℝ, 0 < c ∧ p.normalize = ⟨c * p.x, c * p.y⟩) ∧
      p.normalize.normalize = p.normalize := by
  have hpos : 0 < p.length [] := lt_of_le_of_ne (length_nonneg p) (Ne.symm h)
  have hlen : p.length [] = Real.sqrt (p.x ^ 2 + p.y ^ 2) := by
    simp only [Point.length, pow_two]
  have hn : p.normalize = ⟨p.x / p.length [], p.y / p.length []⟩ := rfl
  refine ⟨hlen, ?_, normalize_length p h, ⟨(p.length [])⁻¹, inv_pos.mpr hpos, ?_⟩, ?_⟩
  · rw [← hlen]; exact hn
  · rw [hn, div_eq_inv_mul, div_eq_inv_mul]
  · have h1 := normalize_length p h
    have hn2 : p.normalize.normalize
        = ⟨p.normalize.x / p.normalize.length [], p.normalize.y / p.normalize.length []⟩ := rfl
    rw [hn2, h1, div_one, div_one]

/-- The statement of C13 on the point `(3, 4)`, of length five. -/
theorem normalize_unit_length_witness :
    (⟨3, 4⟩ : Point ℝ).length [] ≠ 0 ∧
      ((⟨3, 4⟩ : Point ℝ).length [] = Real.sqrt ((3 : ℝ) ^ 2 + (4 : ℝ) ^ 2) ∧
        (⟨3, 4⟩ : Point ℝ).normalize
          = ⟨3 / Real.sqrt ((3 : ℝ) ^ 2 + (4 : ℝ) ^ 2), 4 / Real.sqrt ((3 : ℝ) ^ 2 + (4 : ℝ) ^ 2)⟩ ∧
        (⟨3, 4⟩ : Point ℝ).normalize.length [] = 1 ∧
        (∃ c : ℝ, 0 < c ∧ (⟨3, 4⟩ : Point ℝ).normalize = ⟨c * 3, c * 4⟩) ∧
        (⟨3, 4⟩ : Point ℝ).normalize.normalize = (⟨3, 4⟩ : Point ℝ).normalize) := by
  have h : (⟨3, 4⟩ : Point ℝ).length [] ≠ 0 := by
    have h5 : (⟨3, 4⟩ : Point ℝ).length [] = 5 := by
      have : (3 : ℝ) * 3 + 4 * 4 = 5 * 5 := by norm_num
      simp only [Point.length, this]
      exact Real.sqrt_mul_self (by norm_num)
    rw [h5]; norm_num
  exact ⟨h, normalize_unit_length ⟨3, 4⟩ h⟩

/-- The ordinate of the heart curve where the abscissa is zero. -/
theorem heart_y_of_sin_zero (t : ℝ) (h : Real.sin t = 0) :
    (pointOnHeart t).y = 110 * Real.cos t - 35 ∧ (Real.cos t = 1 ∨ Real.cos t = -1) := by
  have hc : Real.cos t ^ 2 = 1 := by
    have := Real.sin_sq_add_cos_sq t
    rw [h] at this
    simpa using this
  have h2 : Real.cos (2 * t) = 1 := by
    rw [Real.cos_two_mul, hc]; norm_num
  have h3 : Real.cos (3 * t) = Real.cos t := by
    rw [Real.cos_three_mul]
    have : Real.cos t ^ 3 = Real.cos t := by
      rw [pow_succ, hc, one_mul]
    rw [this]; ring
  have h4 : Real.cos (4 * t) = 1 := by
    have : 4 * t = 2 * (2 * t) := by ring
    rw [this, Real.cos_two_mul, h2]; norm_num
  refine ⟨?_, ?_⟩
  · simp only [pointOnHeart, h2, h3, h4]; ring
  · have : (Real.cos t - 1) * (Real.cos t + 1) = 0 := by
      have : (Real.cos t - 1) * (Real.cos t + 1) = Real.cos t ^ 2 - 1 := by ring
      rw [this, hc]; norm_num
    rcases mul_eq_zero.mp this with h1 | h1
    · left; linarith
    · right; linarith

/-- C18: no point of the heart curve is the origin: where `x = 0` the sine is
zero and `y` is `75` or `-145`; so the length of every heart point is
positive, and the length by which `normalize` divides the clone of a heart
point is not zero. -/
theorem heart_point_not_origin (t : ℝ) :
    pointOnHeart t ≠ ⟨0, 0⟩ ∧
      ((pointOnHeart t).x = 0 →
        Real.sin t = 0 ∧ ((pointOnHeart t).y = 75 ∨ (pointOnHeart t).y = -145)) ∧
      0 < (pointOnHeart t).length [] ∧
      (pointOnHeart t).clone.length [] ≠ 0 := by
  have hx : (pointOnHeart t).x = 0 →
      Real.sin t = 0 ∧ ((pointOnHeart t).y = 75 ∨ (pointOnHeart t).y = -145) := by
    intro h0
    have hs : Real.sin t = 0 := by
      have : (160 : ℝ) * Real.sin t ^ 3 = 0 := h0
      rcases mul_eq_zero.mp this with h1 | h1
      · norm_num at h1
      · exact pow_eq_zero_iff (by norm_num) |>.mp h1
    obtain ⟨hy, hc⟩ := heart_y_of_sin_zero t hs
    refine ⟨hs, ?_⟩
    rcases hc with hc | hc
    · left; rw [hy, hc]; norm_num
    · right; rw [hy, hc]; norm_num
  have hne : pointOnHeart t ≠ ⟨0, 0⟩ := by
    intro h
    have h0 : (pointOnHeart t).x = 0 := by rw [h]
    have hy0 : (pointOnHeart t).y = 0 := by rw [h]
    rcases (hx h0).2 with hy | hy <;> rw [hy0] at hy <;> norm_num at hy
  have hpos : 0 < (pointOnHeart t).length [] := by
    apply Real.sqrt_pos.mpr
    by_cases h0 : (pointOnHeart t).x = 0
    · have hy : (pointOnHeart t).y ≠ 0 := by
        rcases (hx h0).2 with hy | hy <;> rw [hy] <;> norm_num
      have := mul_self_pos.mpr hy
      have := mul_self_nonneg (pointOnHeart t).x
      linarith
    · have := mul_self_pos.mpr h0
      have := mul_self_nonneg (pointOnHeart t).y
      linarith
  exact ⟨hne, hx, hpos, ne_of_gt hpos⟩

end Vectors

section RingSlots

variable {α : Type}

/-- The slots of the live range are the slots whose distance from
`firstActive` is less than the number of live particles. -/
theorem mem_liveRange (pool : ParticlePool α) (hA : pool.firstActive < pool.particles.length)
    (m : Nat) :
    m ∈ pool.liveRange ↔ m < pool.particles.length ∧
      (m + pool.particles.length - pool.firstActive) % pool.particles.length < pool.liveCount := by
  have hN : 0 < pool.particles.length := by omega
  have hd : pool.liveCount < pool.particles.length := Nat.mod_lt _ hN
  constructor
  · intro hm
    obtain ⟨j, hj, rfl⟩ := List.mem_map.mp hm
    have hjd : j < pool.liveCount := List.mem_range.mp hj
    have hiN : (pool.firstActive + j) % pool.particles.length < pool.particles.length :=
      Nat.mod_lt _ hN
    refine ⟨hiN, ?_⟩
    have h1 := circ_add_eq hA (show j < pool.particles.length by omega)
    have h2 := circ_sub_eq hA hiN
    split_ifs at h1 h2 <;> omega
  · rintro ⟨hm, hoff⟩
    refine List.mem_map.mpr ⟨(m + pool.particles.length - pool.firstActive)
      % pool.particles.length, List.mem_range.mpr hoff, ?_⟩
    have h1 := circ_sub_eq hA hm
    have h2 := circ_add_eq hA (show (m + pool.particles.length - pool.firstActive)
      % pool.particles.length < pool.particles.length by omega)
    split_ifs at h1 h2 <;> omega

/-- No slot occurs twice in the live range. -/
theorem liveRange_nodup (pool : ParticlePool α) (hA : pool.firstActive < pool.particles.length) :
    pool.liveRange.Nodup := by
  have hN : 0 < pool.particles.length := by omega
  have hd : pool.liveCount < pool.particles.length := Nat.mod_lt _ hN
  apply List.Nodup.map_on _ (List.nodup_range _)
  intro j hj k hk hjk
  have hj1 : j < pool.liveCount := List.mem_range.mp hj
  have hk1 : k < pool.liveCount := List.mem_range.mp hk
  have h1 := circ_add_eq hA (show j < pool.particles.length by omega)
  have h2 := circ_add_eq hA (show k < pool.particles.length by omega)
  split_ifs at h1 h2 <;> omega

end RingSlots

section LiveRange

variable {α : Type} [LinearOrderedField α]

/-- With less fuel than the distance from `i` to `firstFree`, the first loop of
`update` is still running when the fuel is used up. -/
theorem advanceLoop_short (ff : Nat) (dt : α) (N : Nat) :
    ∀ (fuel d i : Nat) (ps : List (Particle α)), ps.length = N → i < N → ff < N →
      (ff + N - i) % N = d → fuel < d → ParticlePool.advanceLoop ff dt fuel i ps = none := by
  intro fuel
  induction fuel with
  | zero =>
    intro d i ps hlen hi hff hd hlt
    have hne : i ≠ ff := by
      intro h
      have h1 := circ_sub_eq hi hff
      split_ifs at h1 <;> omega
    unfold ParticlePool.advanceLoop
    simp [hne]
  | succ fuel ih =>
    intro d i ps hlen hi hff hd hlt
    have hne : i ≠ ff := by
      intro h
      have h1 := circ_sub_eq hi hff
      split_ifs at h1 <;> omega
    have hi2 : i < ps.length := by omega
    have hget : ps[i]? = some ps[i] := List.getElem?_eq_getElem hi2
    have hnext : (i + 1) % N < N := Nat.mod_lt _ (by omega)
    have hdist : (ff + N - (i + 1) % N) % N = d - 1 := by
      have h1 := circ_sub_eq hi hff
      have h2 := circ_sub_eq hnext hff
      have h3 := succ_mod_eq hi
      split_ifs at h1 h2 h3 <;> omega
    unfold ParticlePool.advanceLoop
    simp only [hne, if_false, hget, hlen]
    exact ih (d - 1) ((i + 1) % N) (ps.set i (ps[i].update dt)) (by simp [hlen]) hnext hff
      hdist (by omega)

/-- C14: on a pool with cursors in `[0, N)`, the first loop of `update` ends
after exactly `liveCount` iterations (less fuel leaves it running, that much
fuel ends it) and the second within `liveCount` iterations; `update` returns;
the slots of the live range, none of which occurs twice, hold their particle
advanced by `Particle.update` once, and every other slot is as it was. -/
theorem update_advances_live_range (s : Settings α) (pool : ParticlePool α) (dt : α)
    (hA : pool.firstActive < pool.particles.length)
    (hF : pool.firstFree < pool.particles.length) :
    (∀ fuel, fuel < pool.liveCount →
        ParticlePool.advanceLoop pool.firstFree dt fuel pool.firstActive pool.particles = none) ∧
      ∃ qs, ParticlePool.advanceLoop pool.firstFree dt pool.liveCount pool.firstActive
            pool.particles = some qs ∧
        (∃ firstActive, ParticlePool.retireLoop s qs pool.firstFree pool.liveCount
            pool.firstActive = some firstActive) ∧
        (∀ fuel, pool.liveCount ≤ fuel →
          ∃ pool1, pool.update s fuel dt = some pool1 ∧ pool1.particles = qs) ∧
        qs.length = pool.particles.length ∧
        pool.liveRange.Nodup ∧
        (∀ m ∈ pool.liveRange, qs[m]? = (pool.particles[m]?).map (fun p => p.update dt)) ∧
        (∀ m, m ∉ pool.liveRange → qs[m]? = pool.particles[m]?) := by
  refine ⟨fun fuel hfuel => advanceLoop_short pool.firstFree dt pool.particles.length fuel
    pool.liveCount pool.firstActive pool.particles rfl hA hF rfl hfuel, ?_⟩
  obtain ⟨qs, hq, hqlen, hqs⟩ := advanceLoop_spec pool.firstFree dt pool.particles.length
    pool.liveCount pool.liveCount pool.firstActive pool.particles rfl hA hF rfl (le_refl _)
  refine ⟨qs, hq, ⟨_, retireLoop_spec s qs pool.firstFree pool.particles.length hqlen hF
    pool.liveCount pool.liveCount pool.firstActive hA rfl (le_refl _)⟩, ?_, hqlen,
    liveRange_nodup pool hA, ?_, ?_⟩
  · intro fuel hfuel
    obtain ⟨qs2, hu, hlen2, hqs2⟩ := update_spec s fuel pool dt hA hF hfuel
    refine ⟨_, hu, ?_⟩
    show qs2 = qs
    apply List.ext_getElem?
    intro m
    by_cases hm : m < pool.particles.length
    · rw [hqs2 m hm, hqs m hm]
    · rw [List.getElem?_eq_none (by omega), List.getElem?_eq_none (by omega)]
  · intro m hm
    have hm2 := (mem_liveRange pool hA m).mp hm
    rw [hqs m hm2.1, if_pos hm2.2]
  · intro m hm
    by_cases hmN : m < pool.particles.length
    · have hoff : ¬ (m + pool.particles.length - pool.firstActive) % pool.particles.length
          < pool.liveCount := fun h => hm ((mem_liveRange pool hA m).mpr ⟨hmN, h⟩)
      rw [hqs m hmN, if_neg hoff]
    · rw [List.getElem?_eq_none (by omega), List.getElem?_eq_none (by omega)]

/-- The statement of C14 on the sample pool with `dt = 1`. -/
theorem update_advances_live_range_witness :
    samplePool.firstActive < samplePool.particles.length ∧
      samplePool.firstFree < samplePool.particles.length ∧
      (∀ fuel, fuel < samplePool.liveCount →
        ParticlePool.advanceLoop samplePool.firstFree (1 : ℚ) fuel samplePool.firstActive
          samplePool.particles = none) ∧
      ∃ qs, ParticlePool.advanceLoop samplePool.firstFree (1 : ℚ) samplePool.liveCount
            samplePool.firstActive samplePool.particles = some qs ∧
        (∃ firstActive, ParticlePool.retireLoop settings qs samplePool.firstFree
            samplePool.liveCount samplePool.firstActive = some firstActive) ∧
        (∀ fuel, samplePool.liveCount ≤ fuel →
          ∃ pool1, samplePool.update settings fuel 1 = some pool1 ∧ pool1.particles = qs) ∧
        qs.length = samplePool.particles.length ∧
        samplePool.liveRange.Nodup ∧
        (∀ m ∈ samplePool.liveRange,
          qs[m]? = (samplePool.particles[m]?).map (fun p => p.update 1)) ∧
        (∀ m, m ∉ samplePool.liveRange → qs[m]? = samplePool.particles[m]?) :=
  ⟨by decide, by decide,
    update_advances_live_range settings samplePool 1 (by decide) (by decide)⟩

end LiveRange

section RingLists

variable {α : Type}

/-- Dropping the first `k` slots of an arc of the ring gives the arc that
starts `k` slots later. -/
theorem drop_map_ring (a N n k : Nat) :
    ((List.range n).map fun j => (a + j) % N).drop k
      = (List.range (n - k)).map fun j => ((a + k) % N + j) % N := by
  apply List.ext_getElem
  · simp
  · intro j h1 h2
    simp only [List.getElem_map, List.getElem_range, List.getElem_drop, Nat.mod_add_mod,
      Nat.add_assoc]

/-- The number of live particles after an `add`: one more, unless the pool
was full. -/
theorem liveCount_after_add (pool : ParticlePool α) (q : Particle α)
    (hA : pool.firstActive < pool.particles.length)
    (hF : pool.firstFree < pool.particles.length) :
    ({ particles := pool.particles.set pool.firstFree q
       firstActive :=
         if pool.firstActive = (pool.firstFree + 1) % pool.particles.length
         then (pool.firstActive + 1) % pool.particles.length else pool.firstActive
       firstFree := (pool.firstFree + 1) % pool.particles.length } : ParticlePool α).liveCount
      = pool.liveCount + 1
          - (if pool.firstActive = (pool.firstFree + 1) % pool.particles.length then 1 else 0) ∧
    (pool.firstActive = (pool.firstFree + 1) % pool.particles.length ↔
      pool.liveCount = pool.particles.length - 1) := by
  have hN : 0 < pool.particles.length := by omega
  have hF1 : (pool.firstFree + 1) % pool.particles.length < pool.particles.length :=
    Nat.mod_lt _ hN
  have hA1 : (pool.firstActive + 1) % pool.particles.length < pool.particles.length :=
    Nat.mod_lt _ hN
  have h1 := circ_sub_eq hA hF
  have h2 := succ_mod_eq hF
  have h3 := succ_mod_eq hA
  have h4 := circ_sub_eq hA hF1
  have h5 := circ_sub_eq hA1 hF1
  simp only [ParticlePool.liveCount, List.length_set]
  constructor
  · by_cases hfull : pool.firstActive = (pool.firstFree + 1) % pool.particles.length
    · simp only [if_pos hfull]
      rw [← hfull] at h5 h4 h2 ⊢
      split_ifs at h1 h2 h3 h4 h5 <;> omega
    · simp only [if_neg hfull]
      split_ifs at h1 h2 h3 h4 h5 <;> omega
  · split_ifs at h1 h2 h3 h4 h5 <;> omega

/-- The live range after an `add`: the slot at `firstFree` joins at the end,
and the oldest slot leaves when the pool was full. -/
theorem liveRange_after_add (pool : ParticlePool α) (q : Particle α)
    (hA : pool.firstActive < pool.particles.length)
    (hF : pool.firstFree < pool.particles.length) :
    ({ particles := pool.particles.set pool.firstFree q
       firstActive :=
         if pool.firstActive = (pool.firstFree + 1) % pool.particles.length
         then (pool.firstActive + 1) % pool.particles.length else pool.firstActive
       firstFree := (pool.firstFree + 1) % pool.particles.length } : ParticlePool α).liveRange
      = (pool.liveRange ++ [pool.firstFree]).drop
          (if pool.firstActive = (pool.firstFree + 1) % pool.particles.length then 1 else 0) := by
  have hN : 0 < pool.particles.length := by omega
  have hd : pool.liveCount < pool.particles.length := Nat.mod_lt _ hN
  have hcount := (liveCount_after_add pool q hA hF).1
  have hlast : (pool.firstActive + pool.liveCount) % pool.particles.length = pool.firstFree := by
    have h1 := circ_sub_eq hA hF
    have h2 := circ_add_eq hA hd
    simp only [ParticlePool.liveCount] at h2 ⊢
    split_ifs at h1 h2 <;> omega
  have happ : pool.liveRange ++ [pool.firstFree]
      = (List.range (pool.liveCount + 1)).map
          fun j => (pool.firstActive + j) % pool.particles.length := by
    rw [List.range_succ, List.map_append, List.map_singleton, hlast]
    rfl
  rw [happ, drop_map_ring]
  simp only [ParticlePool.liveRange, hcount, List.length_set]
  by_cases hfull : pool.firstActive = (pool.firstFree + 1) % pool.particles.length
  · simp only [if_pos hfull]
  · simp only [if_neg hfull, Nat.add_zero, Nat.mod_eq_of_lt hA]

/-- The live range after `firstActive` has moved `k` slots forward, `k` at
most the number of live particles: the old one without its first `k` slots. -/
theorem liveRange_after_retire (pool : ParticlePool α) (qs : List (Particle α)) (k : Nat)
    (hA : pool.firstActive < pool.particles.length)
    (hF : pool.firstFree < pool.particles.length) (hqs : qs.length = pool.particles.length)
    (hk : k ≤ pool.liveCount) :
    ({ particles := qs
       firstActive := (pool.firstActive + k) % pool.particles.length
       firstFree := pool.firstFree } : ParticlePool α).liveRange = pool.liveRange.drop k := by
  have hN : 0 < pool.particles.length := by omega
  have hd : pool.liveCount < pool.particles.length := Nat.mod_lt _ hN
  have hnew : (pool.firstActive + k) % pool.particles.length < pool.particles.length :=
    Nat.mod_lt _ hN
  have hcount : (pool.firstFree + pool.particles.length
      - (pool.firstActive + k) % pool.particles.length) % pool.particles.length
        = pool.liveCount - k := by
    have h1 := circ_sub_eq hA hF
    have h2 := circ_sub_eq hnew hF
    have h3 := circ_add_eq hA (show k < pool.particles.length by omega)
    simp only [ParticlePool.liveCount] at hk hd ⊢
    split_ifs at h1 h2 h3 <;> omega
  simp only [ParticlePool.liveRange, ParticlePool.liveCount, hqs, hcount, drop_map_ring]

end RingLists

section Capacity

variable {α : Type} [LinearOrderedField α]

/-- What is known of the pool that `add` returns: the slot written, the
capacity, the cursors, the number of live particles and the live range. -/
theorem add_facts (s : Settings α) (pool : ParticlePool α) (x y dx dy : α)
    (hA : pool.firstActive < pool.particles.length)
    (hF : pool.firstFree < pool.particles.length) :
    ∃ pool1, pool.add s x y dx dy = some pool1 ∧
      pool1.particles = pool.particles.set pool.firstFree
        ( Particle.initialize s (pool.particles.getD pool.firstFree Particle.new) x y dx dy) ∧
      pool1.particles.length = pool.particles.length ∧
      pool1.firstActive < pool.particles.length ∧
      pool1.firstFree < pool.particles.length ∧
      pool1.liveCount = pool.liveCount + 1
        - (if pool.firstActive = (pool.firstFree + 1) % pool.particles.length then 1 else 0) ∧
      (pool.firstActive = (pool.firstFree + 1) % pool.particles.length ↔
        pool.liveCount = pool.particles.length - 1) ∧
      pool1.liveRange = (pool.liveRange ++ [pool.firstFree]).drop
        (if pool.firstActive = (pool.firstFree + 1) % pool.particles.length then 1 else 0) := by
  have hN : 0 < pool.particles.length := by omega
  obtain ⟨hcount, hfull⟩ := liveCount_after_add pool
    ( Particle.initialize s (pool.particles.getD pool.firstFree Particle.new) x y dx dy) hA hF
  refine ⟨_, add_spec s pool x y dx dy hF, rfl, by simp, ?_, Nat.mod_lt _ hN, hcount, hfull,
    liveRange_after_add pool _ hA hF⟩
  show (if _ then _ else _) < _
  split
  · exact Nat.mod_lt _ hN
  · exact hA

/-- A run of `add` calls alone, from a pool with cursors in range: it returns,
and the number of live particles grows by one a call until it stops at
`N - 1`. -/
theorem run_adds_liveCount (s : Settings α) (N fuel : Nat) :
    ∀ (ops : List (PoolOp α)) (pool : ParticlePool α), (∀ op ∈ ops, op.isAdd = true) →
      pool.particles.length = N → pool.firstActive < N → pool.firstFree < N →
      ∃ pool1, ParticlePool.run s fuel ops pool = some pool1 ∧
        pool1.liveCount = min (pool.liveCount + ops.length) (N - 1) := by
  intro ops
  induction ops with
  | nil =>
    intro pool _ hlen hA _
    refine ⟨pool, rfl, ?_⟩
    have hd : pool.liveCount < N := by
      simp only [ParticlePool.liveCount, hlen]
      exact Nat.mod_lt _ (by omega)
    simp only [List.length_nil, Nat.add_zero]
    omega
  | cons op ops ih =>
    intro pool hops hlen hA hF
    have hN : 0 < N := by omega
    have hd : pool.liveCount < N := by
      simp only [ParticlePool.liveCount, hlen]
      exact Nat.mod_lt _ hN
    cases op with
    | add x y dx dy =>
      obtain ⟨pool2, hadd, -, hlen2, hA2, hF2, hcount, hfull, -⟩ :=
        add_facts s pool x y dx dy (by omega) (by omega)
      obtain ⟨pool1, hrun, hlive⟩ := ih pool2
        (fun op hop => hops op (List.mem_cons_of_mem _ hop)) (by omega) (by omega) (by omega)
      refine ⟨pool1, ?_, ?_⟩
      · simp only [ParticlePool.run, hadd]
        exact hrun
      · rw [hlive, hcount, List.length_cons]
        by_cases hc : pool.firstActive = (pool.firstFree + 1) % pool.particles.length
        · have := hfull.mp hc
          simp only [if_pos hc]
          omega
        · have : pool.liveCount ≠ pool.particles.length - 1 := fun h => hc (hfull.mpr h)
          simp only [if_neg hc]
          omega
    | update dt =>
      have := hops (PoolOp.update dt) (List.mem_cons_self _ _)
      simp [PoolOp.isAdd] at this

/-- C17: in every state reached from a fresh pool of capacity `N >= 1` by
`add` and `update` calls at most `N - 1` particles are live; after `k` calls of
`add` alone exactly `min(k, N - 1)` are; a pool of capacity one never has a
live particle. -/
theorem live_count_below_capacity (s : Settings α) (N fuel : Nat) (hN : 1 ≤ N)
    (hfuel : N ≤ fuel) (ops : List (PoolOp α)) :
    ∃ pool, ParticlePool.run s fuel ops (ParticlePool.new N) = some pool ∧
      pool.liveCount ≤ N - 1 ∧
      ((∀ op ∈ ops, op.isAdd = true) → pool.liveCount = min ops.length (N - 1)) ∧
      (N = 1 → pool.liveCount = 0) := by
  have hnew : (ParticlePool.new N : ParticlePool α).particles.length = N := by
    simp [ParticlePool.new]
  obtain ⟨pool, hrun, hlen, hA, hF⟩ := run_spec s N fuel hfuel ops (ParticlePool.new N)
    hnew (by simp only [ParticlePool.new]; omega) (by simp only [ParticlePool.new]; omega)
  have hd : pool.liveCount < N := by
    simp only [ParticlePool.liveCount, hlen]
    exact Nat.mod_lt _ (by omega)
  refine ⟨pool, hrun, by omega, ?_, fun h1 => by omega⟩
  intro hops
  obtain ⟨pool1, hrun1, hlive⟩ := run_adds_liveCount s N fuel ops (ParticlePool.new N) hops
    hnew (by simp only [ParticlePool.new]; omega) (by simp only [ParticlePool.new]; omega)
  have heq : pool1 = pool := Option.some.inj (hrun1.symm.trans hrun)
  have h0 : (ParticlePool.new N : ParticlePool α).liveCount = 0 := by
    simp [ParticlePool.liveCount, ParticlePool.new]
  rw [← heq, hlive, h0, Nat.zero_add]

/-- The statement of C17 on a pool of capacity three, through four `add`
calls. -/
theorem live_count_below_capacity_witness :
    1 ≤ 3 ∧ 3 ≤ 3 ∧
      ∃ pool, ParticlePool.run settings 3
          [PoolOp.add 0 0 1 1, PoolOp.add 1 0 1 1, PoolOp.add 2 0 1 1, PoolOp.add 3 0 1 1]
          (ParticlePool.new 3) = some pool ∧
        pool.liveCount ≤ 3 - 1 ∧
        ((∀ op ∈ [PoolOp.add 0 0 1 1, PoolOp.add 1 0 1 1, PoolOp.add 2 0 1 1,
            (PoolOp.add 3 0 1 1 : PoolOp ℚ)], op.isAdd = true) →
          pool.liveCount = min [PoolOp.add 0 0 1 1, PoolOp.add 1 0 1 1, PoolOp.add 2 0 1 1,
            (PoolOp.add 3 0 1 1 : PoolOp ℚ)].length (3 - 1)) ∧
        (3 = 1 → pool.liveCount = 0) :=
  ⟨by decide, by decide,
    live_count_below_capacity settings 3 3 (by decide) (by decide)
      [PoolOp.add 0 0 1 1, PoolOp.add 1 0 1 1, PoolOp.add 2 0 1 1, PoolOp.add 3 0 1 1]⟩

end Capacity

section Ages

variable {α : Type} [LinearOrderedField α]

/-- The ages of the live particles after an `add`: a zero joins at the end, and
the oldest age leaves when the pool was full. -/
theorem liveAges_after_add (s : Settings α) (pool : ParticlePool α) (x y dx dy : α)
    (hA : pool.firstActive < pool.particles.length)
    (hF : pool.firstFree < pool.particles.length) :
    ∃ pool1, pool.add s x y dx dy = some pool1 ∧
      pool1.particles.length = pool.particles.length ∧
      pool1.firstActive < pool.particles.length ∧
      pool1.firstFree < pool.particles.length ∧
      pool1.liveAges = (pool.liveAges ++ [0]).drop
        (if pool.firstActive = (pool.firstFree + 1) % pool.particles.length then 1 else 0) := by
  obtain ⟨pool1, hadd, hps, hlen, hA1, hF1, -, -, hrange⟩ := add_facts s pool x y dx dy hA hF
  refine ⟨pool1, hadd, hlen, hA1, hF1, ?_⟩
  have hnot : pool.firstFree ∉ pool.liveRange := by
    intro hmem
    have := ((mem_liveRange pool hA pool.firstFree).mp hmem).2
    simp only [ParticlePool.liveCount] at this
    omega
  have hold : pool.liveRange.map (fun i => (pool1.particles.getD i Particle.new).age)
      = pool.liveAges := by
    apply List.map_congr_left
    intro i hi
    have hne : pool.firstFree ≠ i := fun h => hnot (h ▸ hi)
    simp only [hps, List.getD_eq_getElem?_getD, List.getElem?_set_ne hne]
  have hnew : (pool1.particles.getD pool.firstFree Particle.new).age = 0 := by
    simp only [hps, List.getD_eq_getElem?_getD, List.getElem?_set_self hF, Option.getD_some]
    rfl
  simp only [ParticlePool.liveAges] at hold ⊢
  rw [hrange, List.map_drop, List.map_append, List.map_singleton, hold, hnew]

/-- What is known of the pool that `update` returns: the capacity, the
cursors, the live range, and the particles in the slots that were live. -/
theorem update_facts (s : Settings α) (fuel : Nat) (pool : ParticlePool α) (dt : α)
    (hA : pool.firstActive < pool.particles.length)
    (hF : pool.firstFree < pool.particles.length) (hfuel : pool.liveCount ≤ fuel) :
    ∃ pool1, pool.update s fuel dt = some pool1 ∧
      pool1.particles.length = pool.particles.length ∧
      pool1.firstActive < pool.particles.length ∧
      pool1.firstFree = pool.firstFree ∧
      pool1.liveRange = pool.liveRange.drop (pool.expiredPrefix s dt) ∧
      (∀ i ∈ pool.liveRange, pool1.particles.getD i Particle.new = pool.agedSlot dt i) := by
  have hN : 0 < pool.particles.length := by omega
  obtain ⟨qs, hq, hqlen, hqs⟩ := update_spec s fuel pool dt hA hF hfuel
  have hlr : pool.liveRange.length = pool.liveCount := by
    simp [ParticlePool.liveRange]
  have hk : pool.expiredPrefix s dt ≤ pool.liveCount := by
    rw [← hlr]
    exact (List.takeWhile_sublist _).length_le
  refine ⟨_, hq, hqlen, Nat.mod_lt _ hN, rfl,
    liveRange_after_retire pool qs _ hA hF hqlen hk, ?_⟩
  intro i hi
  obtain ⟨hiN, hoff⟩ := (mem_liveRange pool hA i).mp hi
  show qs.getD i Particle.new = pool.agedSlot dt i
  simp only [ParticlePool.agedSlot, List.getD_eq_getElem?_getD, hqs i hiN, if_pos hoff,
    List.getElem?_eq_getElem hiN, Option.map_some', Option.getD_some]

/-- The ages of the live particles after an `update`: each has grown by `dt`,
and the ages of the expired prefix have left. -/
theorem liveAges_after_update (s : Settings α) (fuel : Nat) (pool : ParticlePool α) (dt : α)
    (hA : pool.firstActive < pool.particles.length)
    (hF : pool.firstFree < pool.particles.length) (hfuel : pool.liveCount ≤ fuel) :
    ∃ pool1, pool.update s fuel dt = some pool1 ∧
      pool1.particles.length = pool.particles.length ∧
      pool1.firstActive < pool.particles.length ∧
      pool1.firstFree < pool.particles.length ∧
      pool1.liveAges
        = (pool.liveRange.map fun i => (pool.agedSlot dt i).age).drop (pool.expiredPrefix s dt) ∧
      (pool.liveRange.map fun i => (pool.agedSlot dt i).age)
        = pool.liveAges.map fun a => a + dt := by
  obtain ⟨pool1, hu, hlen, hA1, hF1, hrange, hslots⟩ := update_facts s fuel pool dt hA hF hfuel
  refine ⟨pool1, hu, hlen, hA1, hF1 ▸ hF, ?_, ?_⟩
  · simp only [ParticlePool.liveAges, hrange, ← List.map_drop]
    apply List.map_congr_left
    intro i hi
    rw [hslots i (List.mem_of_mem_drop hi)]
  · simp only [ParticlePool.liveAges, List.map_map]
    apply List.map_congr_left
    intro i _
    rfl

/-- An `add` keeps the ages of the live particles ordered, oldest first, and
not negative. -/
theorem add_ordered (s : Settings α) (pool : ParticlePool α) (x y dx dy : α)
    (hA : pool.firstActive < pool.particles.length)
    (hF : pool.firstFree < pool.particles.length)
    (hpw : pool.liveAges.Pairwise fun a b => b ≤ a) (hnn : ∀ a ∈ pool.liveAges, 0 ≤ a) :
    ∃ pool1, pool.add s x y dx dy = some pool1 ∧
      pool1.particles.length = pool.particles.length ∧
      pool1.firstActive < pool.particles.length ∧
      pool1.firstFree < pool.particles.length ∧
      (pool1.liveAges.Pairwise fun a b => b ≤ a) ∧ ∀ a ∈ pool1.liveAges, 0 ≤ a := by
  obtain ⟨pool1, hadd, hlen, hA1, hF1, hages⟩ := liveAges_after_add s pool x y dx dy hA hF
  have hall : (pool.liveAges ++ [0]).Pairwise fun a b => b ≤ a := by
    rw [List.pairwise_append]
    refine ⟨hpw, List.pairwise_singleton _ _, fun a ha b hb => ?_⟩
    rw [List.mem_singleton.mp hb]
    exact hnn a ha
  have hnn2 : ∀ a ∈ pool.liveAges ++ [0], (0 : α) ≤ a := by
    intro a ha
    rcases List.mem_append.mp ha with h | h
    · exact hnn a h
    · rw [List.mem_singleton.mp h]
  refine ⟨pool1, hadd, hlen, hA1, hF1, ?_, ?_⟩
  · rw [hages]
    exact hall.sublist (List.drop_sublist _ _)
  · intro a ha
    rw [hages] at ha
    exact hnn2 a (List.mem_of_mem_drop ha)

/-- An `update` by a `dt` that is not negative keeps the ages of the live
particles ordered and not negative, and leaves every one of them below the
duration. -/
theorem update_ordered (s : Settings α) (fuel : Nat) (pool : ParticlePool α) (dt : α)
    (hA : pool.firstActive < pool.particles.length)
    (hF : pool.firstFree < pool.particles.length) (hfuel : pool.particles.length ≤ fuel)
    (hdt : 0 ≤ dt)
    (hpw : pool.liveAges.Pairwise fun a b => b ≤ a) (hnn : ∀ a ∈ pool.liveAges, 0 ≤ a) :
    ∃ pool1, pool.update s fuel dt = some pool1 ∧
      pool1.particles.length = pool.particles.length ∧
      pool1.firstActive < pool.particles.length ∧
      pool1.firstFree < pool.particles.length ∧
      (pool1.liveAges.Pairwise fun a b => b ≤ a) ∧ (∀ a ∈ pool1.liveAges, 0 ≤ a) ∧
      ∀ a ∈ pool1.liveAges, a < s.duration := by
  have hN : 0 < pool.particles.length := by omega
  have hd : pool.liveCount < pool.particles.length := Nat.mod_lt _ hN
  obtain ⟨pool1, hu, hlen, hA1, hF1, hages, hmap⟩ :=
    liveAges_after_update s fuel pool dt hA hF (by omega)
  have hall : (pool.liveRange.map fun i => (pool.agedSlot dt i).age).Pairwise
      fun a b => b ≤ a := by
    rw [hmap, List.pairwise_map]
    exact hpw.imp fun h => add_le_add_right h dt
  have hnn2 : ∀ a ∈ pool.liveRange.map (fun i => (pool.agedSlot dt i).age), (0 : α) ≤ a := by
    intro a ha
    rw [hmap] at ha
    obtain ⟨b, hb, rfl⟩ := List.mem_map.mp ha
    exact add_nonneg (hnn b hb) hdt
  have hdrop : (pool1.liveAges.Pairwise fun a b => b ≤ a) := by
    rw [hages]
    exact hall.sublist (List.drop_sublist _ _)
  refine ⟨pool1, hu, hlen, hA1, hF1, hdrop, ?_, ?_⟩
  · intro a ha
    rw [hages] at ha
    exact hnn2 a (List.mem_of_mem_drop ha)
  · have hspec := (takeWhile_length_spec
      (fun i => decide (s.duration ≤ (pool.agedSlot dt i).age)) pool.liveRange).2
    have hhead : ∀ x rest, pool1.liveAges = x :: rest → x < s.duration := by
      intro x rest hx
      have h0 : pool1.liveAges[0]? = some x := by rw [hx]; simp
      rw [hages, List.getElem?_drop, Nat.add_zero, List.getElem?_map] at h0
      have hklt : pool.expiredPrefix s dt < pool.liveRange.length := by
        by_contra hge
        rw [List.getElem?_eq_none (by omega)] at h0
        simp at h0
      rw [List.getElem?_eq_getElem hklt] at h0
      have hfalse := hspec hklt
      simp only [Option.map_some', Option.some.injEq] at h0
      rw [← h0]
      have : ¬ s.duration ≤ (pool.agedSlot dt
          (pool.liveRange.get ⟨pool.expiredPrefix s dt, hklt⟩)).age := by
        simpa using hfalse
      exact lt_of_not_le this
    intro a ha
    cases hl : pool1.liveAges with
    | nil => rw [hl] at ha; simp at ha
    | cons x rest =>
      have hx := hhead x rest hl
      rw [hl] at ha hdrop
      rcases List.mem_cons.mp ha with h | h
      · rw [h]; exact hx
      · exact lt_of_le_of_lt ((List.pairwise_cons.mp hdrop).1 a h) hx

/-- A sequence of calls keeps the ages of the live particles ordered and not
negative, when no `update` in it has a negative `deltaTime`. -/
theorem run_ordered (s : Settings α) (N fuel : Nat) (hfuel : N ≤ fuel) :
    ∀ (ops : List (PoolOp α)) (pool : ParticlePool α), (∀ op ∈ ops, op.forward = true) →
      pool.particles.length = N → pool.firstActive < N → pool.firstFree < N →
      (pool.liveAges.Pairwise fun a b => b ≤ a) → (∀ a ∈ pool.liveAges, 0 ≤ a) →
      ∃ pool1, ParticlePool.run s fuel ops pool = some pool1 ∧
        pool1.particles.length = N ∧ pool1.firstActive < N ∧ pool1.firstFree < N ∧
        (pool1.liveAges.Pairwise fun a b => b ≤ a) ∧ ∀ a ∈ pool1.liveAges, 0 ≤ a := by
  intro ops
  induction ops with
  | nil => intro pool _ hlen hA hF hpw hnn; exact ⟨pool, rfl, hlen, hA, hF, hpw, hnn⟩
  | cons op ops ih =>
    intro pool hops hlen hA hF hpw hnn
    have hrest : ∀ op1 ∈ ops, op1.forward = true :=
      fun op1 h => hops op1 (List.mem_cons_of_mem _ h)
    cases op with
    | add x y dx dy =>
      obtain ⟨pool2, hadd, hlen2, hA2, hF2, hpw2, hnn2⟩ :=
        add_ordered s pool x y dx dy (by omega) (by omega) hpw hnn
      simp only [ParticlePool.run, hadd]
      exact ih pool2 hrest (by omega) (by omega) (by omega) hpw2 hnn2
    | update dt =>
      have hdt : 0 ≤ dt := by
        have := hops (PoolOp.update dt) (List.mem_cons_self _ _)
        simpa [PoolOp.forward] using this
      obtain ⟨pool2, hu, hlen2, hA2, hF2, hpw2, hnn2, -⟩ :=
        update_ordered s fuel pool dt (by omega) (by omega) (by omega) hdt hpw hnn
      simp only [ParticlePool.run, hu]
      exact ih pool2 hrest (by omega) (by omega) (by omega) hpw2 hnn2

/-- Running two sequences of calls one after the other. -/
theorem run_append (s : Settings α) (fuel : Nat) (ops1 : List (PoolOp α)) :
    ∀ (ops0 : List (PoolOp α)) (pool : ParticlePool α),
      ParticlePool.run s fuel (ops0 ++ ops1) pool
        = (ParticlePool.run s fuel ops0 pool).bind (ParticlePool.run s fuel ops1) := by
  intro ops0
  induction ops0 with
  | nil => intro pool; rfl
  | cons op ops0 ih =>
    intro pool
    cases op with
    | add x y dx dy =>
      simp only [List.cons_append, ParticlePool.run]
      cases pool.add s x y dx dy with
      | none => rfl
      | some pool1 => exact ih pool1
    | update dt =>
      simp only [List.cons_append, ParticlePool.run]
      cases pool.update s fuel dt with
      | none => rfl
      | some pool1 => exact ih pool1

/-- The loop of `draw` ends within `d` iterations, `d` the distance from `i` to
`firstFree`, and draws the slots of `[i, firstFree)` in order. -/
theorem drawLoop_spec (s : Settings α) (ps : List (Particle α)) (ff N : Nat)
    (hlen : ps.length = N) (hff : ff < N) :
    ∀ (d fuel i : Nat) (arcs : List (Arc α)), i < N → (ff + N - i) % N = d → d ≤ fuel →
      ParticlePool.drawLoop s ps ff fuel i arcs
        = some (arcs ++ ((List.range d).map fun j => (i + j) % N).map
            fun m => (ps.getD m Particle.new).draw s) := by
  intro d
  induction d with
  | zero =>
    intro fuel i arcs hi hd _
    have hif : i = ff := by
      have h1 := circ_sub_eq hi hff
      split_ifs at h1 <;> omega
    cases fuel <;> simp [ParticlePool.drawLoop, hif]
  | succ d ih =>
    intro fuel i arcs hi hd hfuel
    have hne : i ≠ ff := by
      intro h
      have h1 := circ_sub_eq hi hff
      split_ifs at h1 <;> omega
    obtain ⟨fuel, rfl⟩ : ∃ f, fuel = f + 1 := ⟨fuel - 1, by omega⟩
    have hi2 : i < ps.length := by omega
    have hget : ps[i]? = some ps[i] := List.getElem?_eq_getElem hi2
    have hgetD : ps.getD i Particle.new = ps[i] := by
      rw [List.getD_eq_getElem?_getD, hget]; rfl
    have hnext : (i + 1) % N < N := Nat.mod_lt _ (by omega)
    have hdist : (ff + N - (i + 1) % N) % N = d := by
      have h1 := circ_sub_eq hi hff
      have h2 := circ_sub_eq hnext hff
      have h3 := succ_mod_eq hi
      split_ifs at h1 h2 h3 <;> omega
    have hshift : ((List.range d).map (Nat.succ)).map (fun j => (i + j) % N)
        = (List.range d).map fun j => ((i + 1) % N + j) % N := by
      rw [List.map_map]
      apply List.map_congr_left
      intro j _
      simp only [Function.comp, Nat.mod_add_mod, Nat.succ_eq_add_one]
      congr 1
      omega
    simp only [ParticlePool.drawLoop, hne, if_false, hget, hlen]
    have h0 : (i + 0) % N = i := Nat.mod_eq_of_lt hi
    rw [ih fuel ((i + 1) % N) _ hnext hdist (by omega), List.range_succ_eq_map, List.map_cons,
      hshift, List.map_cons, h0, hgetD, List.append_assoc]
    rfl

/-- The alpha of a particle whose age is not negative and below the duration
is positive and at most one. -/
theorem alpha_bounds (s : Settings α) (p : Particle α) (h0 : 0 ≤ p.age)
    (h1 : p.age < s.duration) : 0 < p.alpha s ∧ p.alpha s ≤ 1 := by
  have hd : 0 < s.duration := lt_of_le_of_lt h0 h1
  have hlt : p.age / s.duration < 1 := (div_lt_one hd).mpr h1
  have hge : 0 ≤ p.age / s.duration := div_nonneg h0 (le_of_lt hd)
  simp only [Particle.alpha]
  constructor <;> linarith

/-- C16: in every state reached from a fresh pool of capacity `N >= 1` by
`add` calls and `update` calls with `dt >= 0`, the ages of the live particles
do not increase from `firstActive` towards `firstFree` (and are not negative);
right after an `update` every live particle has `age < duration`, so its alpha
is positive and at most one, and so is the alpha of every arc that `draw` then
draws. -/
theorem live_ages_ordered (s : Settings α) (N fuel : Nat) (hN : 1 ≤ N) (hfuel : N ≤ fuel)
    (ops : List (PoolOp α)) (hops : ∀ op ∈ ops, op.forward = true) :
    ∃ pool, ParticlePool.run s fuel ops (ParticlePool.new N) = some pool ∧
      (pool.liveAges.Pairwise fun a b => b ≤ a) ∧
      (∀ a ∈ pool.liveAges, 0 ≤ a) ∧
      (∀ ops0 dt, ops = ops0 ++ [PoolOp.update dt] →
        (∀ i ∈ pool.liveRange,
          (pool.particles.getD i Particle.new).age < s.duration ∧
            0 < (pool.particles.getD i Particle.new).alpha s ∧
            (pool.particles.getD i Particle.new).alpha s ≤ 1) ∧
        ∃ arcs, pool.draw s fuel = some arcs ∧
          arcs = pool.liveRange.map (fun i => (pool.particles.getD i Particle.new).draw s) ∧
          ∀ arc ∈ arcs, 0 < arc.globalAlpha ∧ arc.globalAlpha ≤ 1) := by
  have hnew : (ParticlePool.new N : ParticlePool α).particles.length = N := by
    simp [ParticlePool.new]
  have hlive0 : (ParticlePool.new N : ParticlePool α).liveAges = [] := by
    simp [ParticlePool.liveAges, ParticlePool.liveRange, ParticlePool.liveCount,
      ParticlePool.new]
  have hpw0 : (ParticlePool.new N : ParticlePool α).liveAges.Pairwise fun a b => b ≤ a := by
    rw [hlive0]; exact List.Pairwise.nil
  have hnn0 : ∀ a ∈ (ParticlePool.new N : ParticlePool α).liveAges, (0 : α) ≤ a := by
    rw [hlive0]; intro a ha; simp at ha
  have hA0 : (ParticlePool.new N : ParticlePool α).firstActive < N := by
    simp only [ParticlePool.new]; omega
  have hF0 : (ParticlePool.new N : ParticlePool α).firstFree < N := by
    simp only [ParticlePool.new]; omega
  obtain ⟨pool, hrun, hlen, hA, hF, hpw, hnn⟩ :=
    run_ordered s N fuel hfuel ops (ParticlePool.new N) hops hnew hA0 hF0 hpw0 hnn0
  refine ⟨pool, hrun, hpw, hnn, ?_⟩
  intro ops0 dt hsplit
  have hops0 : ∀ op ∈ ops0, op.forward = true := fun op h =>
    hops op (by rw [hsplit]; exact List.mem_append_left _ h)
  have hdt : 0 ≤ dt := by
    have := hops (PoolOp.update dt) (by rw [hsplit]; simp)
    simpa [PoolOp.forward] using this
  obtain ⟨pool0, hrun0, hlen0, hA00, hF00, hpw00, hnn00⟩ :=
    run_ordered s N fuel hfuel ops0 (ParticlePool.new N) hops0 hnew hA0 hF0 hpw0 hnn0
  obtain ⟨pool1, hu, -, -, -, -, -, hbelow⟩ :=
    update_ordered s fuel pool0 dt (by omega) (by omega) (by omega) hdt hpw00 hnn00
  have hpool : pool1 = pool := by
    have h2 := hrun
    rw [hsplit, run_append, hrun0] at h2
    simp only [Option.bind, ParticlePool.run, hu] at h2
    exact Option.some.inj h2
  rw [hpool] at hbelow
  have hlive : ∀ i ∈ pool.liveRange,
      (pool.particles.getD i Particle.new).age < s.duration ∧
        0 < (pool.particles.getD i Particle.new).alpha s ∧
        (pool.particles.getD i Particle.new).alpha s ≤ 1 := by
    intro i hi
    have hmem : (pool.particles.getD i Particle.new).age ∈ pool.liveAges :=
      List.mem_map.mpr ⟨i, hi, rfl⟩
    exact ⟨hbelow _ hmem, alpha_bounds s _ (hnn _ hmem) (hbelow _ hmem)⟩
  refine ⟨hlive, _, ?_, rfl, ?_⟩
  · have hd : pool.liveCount < N := by
      simp only [ParticlePool.liveCount, hlen]
      exact Nat.mod_lt _ (by omega)
    have := drawLoop_spec s pool.particles pool.firstFree N hlen hF pool.liveCount fuel
      pool.firstActive [] hA (by simp only [ParticlePool.liveCount, hlen]) (by omega)
    simp only [ParticlePool.draw, this, List.nil_append, ParticlePool.liveRange, hlen]
  · intro arc harc
    obtain ⟨i, hi, rfl⟩ := List.mem_map.mp harc
    exact (hlive i hi).2

/-- The statement of C16 on a pool of capacity three, through two frames. -/
theorem live_ages_ordered_witness :
    1 ≤ 3 ∧ 3 ≤ 3 ∧
      (∀ op ∈ [PoolOp.add 0 0 1 1, PoolOp.update (1 / 60), PoolOp.add 1 0 1 1,
          (PoolOp.update 1 : PoolOp ℚ)], op.forward = true) ∧
      ∃ pool, ParticlePool.run settings 3
          [PoolOp.add 0 0 1 1, PoolOp.update (1 / 60), PoolOp.add 1 0 1 1, PoolOp.update 1]
          (ParticlePool.new 3) = some pool ∧
        (pool.liveAges.Pairwise fun a b => b ≤ a) ∧
        (∀ a ∈ pool.liveAges, 0 ≤ a) ∧
        (∀ ops0 dt, [PoolOp.add 0 0 1 1, PoolOp.update (1 / 60), PoolOp.add 1 0 1 1,
            (PoolOp.update 1 : PoolOp ℚ)] = ops0 ++ [PoolOp.update dt] →
          (∀ i ∈ pool.liveRange,
            (pool.particles.getD i Particle.new).age < settings.duration ∧
              0 < (pool.particles.getD i Particle.new).alpha settings ∧
              (pool.particles.getD i Particle.new).alpha settings ≤ 1) ∧
          ∃ arcs, pool.draw settings 3 = some arcs ∧
            arcs = pool.liveRange.map
              (fun i => (pool.particles.getD i Particle.new).draw settings) ∧
            ∀ arc ∈ arcs, 0 < arc.globalAlpha ∧ arc.globalAlpha ≤ 1) :=
  ⟨by decide, by decide, by simp [PoolOp.forward],
    live_ages_ordered settings 3 3 (by decide) (by decide)
      [PoolOp.add 0 0 1 1, PoolOp.update (1 / 60), PoolOp.add 1 0 1 1, PoolOp.update 1]
      (by simp [PoolOp.forward])⟩

end Ages

section Silhouette

variable {α : Type} [LinearOrderedField α]

/-- The points the scan pushes for the row `y`. -/
theorem scanRow_spec (width height : Nat) (yOffset : α) (imageData : List Nat) (y : Nat) :
    ∀ (n fuel i : Nat) (acc : List (Point α)), (width + 1) / 2 - i = n → n ≤ fuel →
      scanRow width height yOffset imageData y fuel (2 * i) acc
        = some (acc ++ (((List.range' i n).map fun k => 2 * k).filter
            fun x => alphaAbove width imageData x y).map
              fun x => silhouettePoint width height yOffset x y) := by
  intro n
  induction n with
  | zero =>
    intro fuel i acc hn _
    have hlt : ¬ 2 * i < width := by omega
    cases fuel <;> simp [scanRow, hlt]
  | succ n ih =>
    intro fuel i acc hn hfuel
    have hlt : 2 * i < width := by omega
    obtain ⟨fuel, rfl⟩ : ∃ f, fuel = f + 1 := ⟨fuel - 1, by omega⟩
    have hstep : 2 * i + scale = 2 * (i + 1) := by simp only [scale]; omega
    simp only [scanRow, hlt, if_true, hstep]
    rw [ih fuel (i + 1) _ (by omega) (by omega), List.range'_succ, List.map_cons]
    by_cases ha : alphaAbove width imageData (2 * i) y = true
    · simp [ha, List.filter_cons]
    · simp [ha, List.filter_cons]

/-- The points the scan pushes from the row `2 * j` on. -/
theorem scanRows_spec (width height : Nat) (yOffset : α) (imageData : List Nat) (inner : Nat)
    (hinner : (width + 1) / 2 ≤ inner) :
    ∀ (n fuel j : Nat) (acc : List (Point α)), (height + 1) / 2 - j = n → n ≤ fuel →
      scanRows width height yOffset imageData inner fuel (2 * j) acc
        = some (acc ++ (List.range' j n).flatMap fun r =>
            (((List.range ((width + 1) / 2)).map fun k => 2 * k).filter
              fun x => alphaAbove width imageData x (2 * r)).map
                fun x => silhouettePoint width height yOffset x (2 * r)) := by
  intro n
  induction n with
  | zero =>
    intro fuel j acc hn _
    have hlt : ¬ 2 * j < height := by omega
    cases fuel <;> simp [scanRows, hlt]
  | succ n ih =>
    intro fuel j acc hn hfuel
    have hlt : 2 * j < height := by omega
    obtain ⟨fuel, rfl⟩ : ∃ f, fuel = f + 1 := ⟨fuel - 1, by omega⟩
    have hstep : 2 * j + scale = 2 * (j + 1) := by simp only [scale]; omega
    have hrow := scanRow_spec width height yOffset imageData (2 * j) ((width + 1) / 2) inner 0
      acc (by omega) hinner
    rw [Nat.mul_zero] at hrow
    simp only [scanRows, hlt, if_true, hstep, hrow]
    rw [ih fuel (j + 1) _ (by omega) (by omega), List.range'_succ, List.flatMap_cons,
      List.range_eq_range', List.append_assoc]

/-- The sampled pixels are the pixels of the surface with both coordinates
even. -/
theorem mem_sampledPixels (width height x y : Nat) :
    (x, y) ∈ sampledPixels width height ↔ x % 2 = 0 ∧ y % 2 = 0 ∧ x < width ∧ y < height := by
  simp only [sampledPixels, List.mem_flatMap, List.mem_map, List.mem_range, Prod.mk.injEq]
  constructor
  · rintro ⟨j, hj, i, hi, rfl, rfl⟩
    omega
  · rintro ⟨hx, hy, hxw, hyh⟩
    exact ⟨y / 2, by omega, x / 2, by omega, by omega, by omega⟩

/-- No pixel is sampled twice. -/
theorem sampledPixels_nodup (width height : Nat) : (sampledPixels width height).Nodup := by
  simp only [sampledPixels]
  rw [List.nodup_flatMap]
  constructor
  · intro j _
    apply List.Nodup.map _ (List.nodup_range _)
    intro a b hab
    simp only [Prod.mk.injEq] at hab
    omega
  · apply (List.nodup_range _).imp
    intro a b hab p hpa hpb
    obtain ⟨i, _, rfl⟩ := List.mem_map.mp hpa
    obtain ⟨k, _, hk⟩ := List.mem_map.mp hpb
    simp only [Prod.mk.injEq] at hk
    omega

/-- Two pixels with the same silhouette point are the same pixel. -/
theorem silhouettePoint_injective (width height : Nat) (yOffset : α) (p q : Nat × Nat)
    (h : silhouettePoint width height yOffset p.1 p.2
      = silhouettePoint width height yOffset q.1 q.2) : p = q := by
  simp only [silhouettePoint, Point.mk.injEq] at h
  obtain ⟨hx, hy⟩ := h
  have h1 : (p.1 : α) = q.1 := by linarith
  have h2 : (p.2 : α) = q.2 := by linarith
  exact Prod.ext (Nat.cast_injective h1) (Nat.cast_injective h2)

/-- C15: the scan of `getTextParticles` returns, for the sampled pixels (both
coordinates multiples of 2, `x < W`, `y < H`, none of them twice) taken row by
row, the point `(x - W/2, y - H/2 - yOffset)` of each pixel whose alpha byte at
index `(y*W + x)*4 + 3` is greater than 128, once, and nothing else; when no
sampled pixel has such an alpha the result is empty. -/
theorem silhouette_scan (width height : Nat) (yOffset : α) (imageData : List Nat) (fuel : Nat)
    (hw : width ≤ fuel) (hh : height ≤ fuel) :
    ∃ particles, getTextParticles width height yOffset imageData fuel = some particles ∧
      particles = ((sampledPixels width height).filter
        fun p => alphaAbove width imageData p.1 p.2).map
          (fun p => silhouettePoint width height yOffset p.1 p.2) ∧
      particles.Nodup ∧
      (sampledPixels width height).Nodup ∧
      (∀ x y, (x, y) ∈ sampledPixels width height ↔
        x % 2 = 0 ∧ y % 2 = 0 ∧ x < width ∧ y < height) ∧
      (∀ x y, alphaAbove width imageData x y = true ↔
        ∃ alpha, imageData[(y * width + x) * 4 + 3]? = some alpha ∧ 128 < alpha) ∧
      (∀ x y, silhouettePoint width height yOffset x y
        = ⟨(x : α) - (width : α) / 2, (y : α) - (height : α) / 2 - yOffset⟩) ∧
      (∀ pt, pt ∈ particles ↔ ∃ x y, x % 2 = 0 ∧ y % 2 = 0 ∧ x < width ∧ y < height ∧
        alphaAbove width imageData x y = true ∧
        pt = ⟨(x : α) - (width : α) / 2, (y : α) - (height : α) / 2 - yOffset⟩) ∧
      ((∀ p ∈ sampledPixels width height, alphaAbove width imageData p.1 p.2 = false) →
        particles = []) := by
  have hscan := scanRows_spec width height yOffset imageData fuel (by omega)
    ((height + 1) / 2) fuel 0 [] (by omega) (by omega)
  rw [Nat.mul_zero] at hscan
  have hlist : ((List.range' 0 ((height + 1) / 2)).flatMap fun r =>
      (((List.range ((width + 1) / 2)).map fun k => 2 * k).filter
        fun x => alphaAbove width imageData x (2 * r)).map
          fun x => silhouettePoint width height yOffset x (2 * r))
      = ((sampledPixels width height).filter
        fun p => alphaAbove width imageData p.1 p.2).map
          (fun p => silhouettePoint width height yOffset p.1 p.2) := by
    simp only [sampledPixels, List.filter_flatMap, List.map_flatMap, List.filter_map,
      List.map_map, ← List.range_eq_range']
    rfl
  refine ⟨_, by simp only [getTextParticles, hscan, List.nil_append, hlist], rfl, ?_,
    sampledPixels_nodup width height, mem_sampledPixels width height, ?_, fun x y => rfl, ?_, ?_⟩
  · apply List.Nodup.map_on _ ((sampledPixels_nodup width height).filter _)
    intro p _ q _ hpq
    exact silhouettePoint_injective width height yOffset p q hpq
  · intro x y
    simp only [alphaAbove]
    cases imageData[(y * width + x) * 4 + 3]? with
    | none => simp
    | some a => simp
  · intro pt
    simp only [List.mem_map, List.mem_filter]
    constructor
    · rintro ⟨⟨x, y⟩, ⟨hmem, ha⟩, rfl⟩
      obtain ⟨h1, h2, h3, h4⟩ := (mem_sampledPixels width height x y).mp hmem
      exact ⟨x, y, h1, h2, h3, h4, ha, rfl⟩
    · rintro ⟨x, y, h1, h2, h3, h4, ha, rfl⟩
      exact ⟨(x, y), ⟨(mem_sampledPixels width height x y).mpr ⟨h1, h2, h3, h4⟩, ha⟩, rfl⟩
  · intro hnone
    have : (sampledPixels width height).filter
        (fun p => alphaAbove width imageData p.1 p.2) = [] := by
      rw [List.filter_eq_nil_iff]
      intro p hp
      rw [hnone p hp]
      simp
    rw [this, List.map_nil]

/-- The statement of C15 on the sample surface of 4 by 2 pixels. -/
theorem silhouette_scan_witness :
    4 ≤ 4 ∧ 2 ≤ 4 ∧
      ∃ particles, getTextParticles 4 2 (3 / 10 : ℚ) sampleImage 4 = some particles ∧
        particles = ((sampledPixels 4 2).filter
          fun p => alphaAbove 4 sampleImage p.1 p.2).map
            (fun p => silhouettePoint 4 2 (3 / 10 : ℚ) p.1 p.2) ∧
        particles.Nodup ∧
        (sampledPixels 4 2).Nodup ∧
        (∀ x y, (x, y) ∈ sampledPixels 4 2 ↔ x % 2 = 0 ∧ y % 2 = 0 ∧ x < 4 ∧ y < 2) ∧
        (∀ x y, alphaAbove 4 sampleImage x y = true ↔
          ∃ alpha, sampleImage[(y * 4 + x) * 4 + 3]? = some alpha ∧
            128 < alpha) ∧
        (∀ x y, silhouettePoint 4 2 (3 / 10 : ℚ) x y
          = ⟨(x : ℚ) - ((4 : Nat) : ℚ) / 2, (y : ℚ) - ((2 : Nat) : ℚ) / 2 - 3 / 10⟩) ∧
        (∀ pt, pt ∈ particles ↔ ∃ x y, x % 2 = 0 ∧ y % 2 = 0 ∧ x < 4 ∧ y < 2 ∧
          alphaAbove 4 sampleImage x y = true ∧
          pt = ⟨(x : ℚ) - ((4 : Nat) : ℚ) / 2, (y : ℚ) - ((2 : Nat) : ℚ) / 2 - 3 / 10⟩) ∧
        ((∀ p ∈ sampledPixels 4 2, alphaAbove 4 sampleImage p.1 p.2 = false) →
          particles = []) :=
  ⟨by decide, by decide,
    silhouette_scan 4 2 (3 / 10 : ℚ) sampleImage 4 (by decide) (by decide)⟩

end Silhouette

end HeartAnim
